import Mathlib

/-!
Verification development for the `bun-vector-mcp` retrieval pipeline.

The TypeScript sources are shallowly embedded here:
* JS strings are modelled as `List Char`, with helper functions mirroring the
  JS string methods the sources use (`trim`, `split(/\s+/)`, `split('\n')`, …).
* JS `number` values that carry scores/similarities are modelled as `ℚ`
  (exact arithmetic in place of IEEE doubles).
* `Float32Array` contents are modelled by their 32-bit patterns as `Nat`
  (each element a value `< 2^32`), and byte buffers as `List Nat` of bytes,
  so that the byte-level codec in `src/utils/code.ts` is exact.
* Asynchronous calls into external providers (embedding model, LLM, SQLite)
  are modelled as explicit inputs: a function result or an `Except` capturing
  a thrown error.

Embedded components: the vector codec (`src/utils/code.ts`), the hybrid
scoring of `searchSimilar` (`src/services/search.ts`), reciprocal rank fusion,
deduplication and Jaccard similarity (`src/services/query-expansion.ts`),
context assembly and the ask/stream orchestrators (`src/services/rag.ts`),
MMR diversification (the `buildSmartContext` evolution of `rag.ts`) and the
chunking strategies (`src/utils/text.ts`), together with the constants from
`src/constants/rag.ts`.
-/

namespace BunVectorMcp

/-! ## JS string helpers (strings as `List Char`) -/

/-- JS `String.prototype.trim`: drop whitespace from both ends. -/
def jsTrim (s : List Char) : List Char :=
  ((s.dropWhile Char.isWhitespace).reverse.dropWhile Char.isWhitespace).reverse

/-- Auxiliary scanner for `jsSplitWS`: accumulates the current piece (in
reverse); in skip mode (inside a whitespace run whose piece was already
emitted) further whitespace is consumed silently. -/
def jsSplitWSGo : Bool → List Char → List Char → List (List Char)
  | _, [], cur => [cur.reverse]
  | skipMode, c :: rest, cur =>
    if c.isWhitespace then
      if skipMode then jsSplitWSGo true rest cur
      else cur.reverse :: jsSplitWSGo true rest []
    else
      jsSplitWSGo false rest (c :: cur)

/-- JS `s.split(/\s+/)`: split at maximal whitespace runs.  A leading or
trailing run produces an empty piece, and `"".split` gives `[""]`, exactly as
in JS. -/
def jsSplitWS (s : List Char) : List (List Char) :=
  jsSplitWSGo false s []

/-! ## Constants (`src/constants/rag.ts`) -/

def CHUNK_SIZE : Nat := 1800
def CHUNK_OVERLAP : Nat := 400
def MIN_CHUNK_SIZE : Nat := 50
def DEFAULT_TOP_K : Nat := 8
def SIMILARITY_THRESHOLD : ℚ := 0.2
def QUESTION_WEIGHT : ℚ := 0.6
def CONTENT_WEIGHT : ℚ := 0.4
def DEDUPLICATION_THRESHOLD : ℚ := 0.95
def MAX_CONTEXT_LENGTH : Nat := 12000
def MMR_DIVERSITY_LAMBDA : ℚ := 0.5

/-! ## Vector codec (`src/utils/code.ts`)

A float32 is identified with its 32-bit pattern, a `Nat` below `2 ^ 32`;
a byte buffer is a `List Nat` of byte values.  `Float32Array`/`Uint32Array`
little-endian layout is made explicit. -/

/-- Little-endian bytes of one 32-bit word. -/
def encodeWord32 (w : Nat) : List Nat :=
  [w % 256, w / 256 % 256, w / 256 / 256 % 256, w / 256 / 256 / 256 % 256]

/-- Read one little-endian 32-bit word from four bytes. -/
def decodeWord32 (b0 b1 b2 b3 : Nat) : Nat :=
  b0 + 256 * (b1 + 256 * (b2 + 256 * b3))

/-- Read consecutive 32-bit words from a byte buffer; a trailing group of
fewer than four bytes is ignored (as `buffer.length / 4` truncates in the
`Float32Array` view). -/
def decodeWords : List Nat → List Nat
  | b0 :: b1 :: b2 :: b3 :: rest => decodeWord32 b0 b1 b2 b3 :: decodeWords rest
  | _ => []

/-- Source `serializeVector`: a vector becomes the raw little-endian float32 bytes,
with no header. -/
def serializeVector (vector : List Nat) : List Nat :=
  (vector.map encodeWord32).flatten

/-- Source `deserializeVector`: read the buffer back as float32 values. -/
def deserializeVector (buffer : List Nat) : List Nat :=
  decodeWords buffer

/-- JS `TypedArray.prototype.set`: overwrite `buf` from offset `off` with `xs`
(well-defined here when `off + xs.length ≤ buf.length`, the only case the
source exercises). -/
def setSegment (buf : List Nat) (off : Nat) (xs : List Nat) : List Nat :=
  buf.take off ++ xs ++ buf.drop (off + xs.length)

/-- The copy loop of `serializeVectors`: `dataBuffer.set(vectors[i], i * dim)`
for each row, starting from row index `i`. -/
def writeRows (dim : Nat) : List (List Nat) → Nat → List Nat → List Nat
  | [], _, buf => buf
  | v :: rest, i, buf => writeRows dim rest (i + 1) (setSegment buf (i * dim) v)

/-- Source `serializeVectors`: an empty input gives an empty buffer; otherwise an
8-byte `[count, dim]` header (two little-endian `u32`) followed by the rows
copied into a zero-initialised `count * dim` float buffer. -/
def serializeVectors (vectors : List (List Nat)) : List Nat :=
  match vectors with
  | [] => []
  | v0 :: _ =>
    let count := vectors.length
    let dim := v0.length
    let totalFloats := count * dim
    let dataWords := writeRows dim vectors 0 (List.replicate totalFloats 0)
    encodeWord32 count ++ encodeWord32 dim ++ (dataWords.map encodeWord32).flatten

/-- Source `deserializeVectors`: empty buffer gives `[]`; otherwise read `count` and
`dim` from the header and slice the float data into `count` rows of `dim`. -/
def deserializeVectors (buffer : List Nat) : List (List Nat) :=
  if buffer = [] then []
  else
    let count := decodeWord32 (buffer.getD 0 0) (buffer.getD 1 0)
      (buffer.getD 2 0) (buffer.getD 3 0)
    let dim := decodeWord32 (buffer.getD 4 0) (buffer.getD 5 0)
      (buffer.getD 6 0) (buffer.getD 7 0)
    let dataWords := decodeWords (buffer.drop 8)
    (List.range count).map (fun i => (dataWords.drop (i * dim)).take dim)

/-! ## Data model (`src/types/index.ts`) -/

/-- A scored retrieval candidate (`SearchResult` in the source).
`chunk_index` is optional there; `rerank_score` is attached by RRF. -/
structure SearchResult where
  id : Nat
  filename : List Char
  chunk_text : List Char
  chunk_index : Option Nat
  similarity : ℚ
  rerank_score : Option ℚ := none
deriving DecidableEq

/-- An all-zero `SearchResult`, used only as the (unreachable) default of
`List.getD` lookups at indices that are in bounds. -/
def defaultSearchResult : SearchResult :=
  { id := 0, filename := [], chunk_text := [], chunk_index := none,
    similarity := 0, rerank_score := none }

/-! ## Hybrid scoring (`src/services/search.ts`, lines 49–75)

`cosineSimilarity` involves a real square root, so the similarity primitive
is abstracted as a parameter `sim`; the map body of `searchSimilar` that
combines the per-vector similarities into the hybrid score is embedded
verbatim. -/

/-- A database row as `searchSimilar` sees it: content embedding plus the
stored question (intent) embeddings (`[]` when none are stored). -/
structure DocumentRow where
  id : Nat
  filename : List Char
  chunk_text : List Char
  chunk_index : Option Nat
  embedding : List ℚ
  question_embeddings : List (List ℚ)
deriving DecidableEq

/-- The per-document scoring body of `searchSimilar`: `maxQuestionSimilarity`
starts at `0` and takes `Math.max` with the similarity to each stored
question embedding; the hybrid score weights it against the content
similarity. -/
def documentHybridScore (sim : List ℚ → List ℚ → ℚ) (queryEmbedding : List ℚ)
    (doc : DocumentRow) : ℚ :=
  let maxQuestionSimilarity :=
    doc.question_embeddings.foldl (fun m qe => max m (sim queryEmbedding qe)) 0
  let contentSimilarity := sim queryEmbedding doc.embedding
  maxQuestionSimilarity * QUESTION_WEIGHT + contentSimilarity * CONTENT_WEIGHT

/-- The intent similarity as the specification words it: the maximum
similarity between the query vector and any stored intent vector, `0` when
none are stored.  Stated for comparison with `documentHybridScore`. -/
def specIntentSimilarity (sim : List ℚ → List ℚ → ℚ) (queryEmbedding : List ℚ)
    (qes : List (List ℚ)) : ℚ :=
  match qes with
  | [] => 0
  | qe :: rest => rest.foldl (fun m x => max m (sim queryEmbedding x)) (sim queryEmbedding qe)

/-- The hybrid score as the claim words it:
`intentSimilarity × W_intent + contentSimilarity × W_content` with
`intentSimilarity = specIntentSimilarity`. -/
def specHybridScore (sim : List ℚ → List ℚ → ℚ) (queryEmbedding : List ℚ)
    (doc : DocumentRow) : ℚ :=
  specIntentSimilarity sim queryEmbedding doc.question_embeddings * QUESTION_WEIGHT +
    sim queryEmbedding doc.embedding * CONTENT_WEIGHT

/-- The source's `dotProduct` on equal-length vectors (the length-mismatch
branch throws there and is not modelled).  For unit vectors this coincides
with `cosineSimilarity`, so it serves as a concrete similarity primitive. -/
def dotProductQ (a b : List ℚ) : ℚ :=
  ((a.zip b).map (fun p => p.1 * p.2)).sum

/-! ## Jaccard text similarity
(`calculateTextSimilarity` in `src/services/query-expansion.ts` and the
verbatim copies `calculateJaccardSimilarity` in `rag.ts`/`text.ts`) -/

/-- JS `\w`: ASCII letters, digits and underscore. -/
def jsWordChar (c : Char) : Bool :=
  c.isAlphanum || c = '_'

/-- The token pipeline: lowercase, replace `[^\w\s]` by spaces, split on
whitespace, keep tokens longer than 2 characters.  Because every non-word
character is either replaced by a space or is whitespace, this equals
splitting the lowercased text at every non-word character. -/
def jsTokens (text : List Char) : List (List Char) :=
  ((text.map Char.toLower).splitOnP (fun c => !jsWordChar c)).filter
    (fun t => 2 < t.length)

/-- Token-set Jaccard similarity: `|t1 ∩ t2| / |t1 ∪ t2|`, `0` for an empty
union. -/
def calculateJaccardSimilarity (text1 text2 : List Char) : ℚ :=
  let tokens1 := (jsTokens text1).dedup
  let tokens2 := (jsTokens text2).dedup
  let intersection := tokens1.filter (fun x => tokens2.contains x)
  let union := (tokens1 ++ tokens2).dedup
  if union.length = 0 then 0
  else (intersection.length : ℚ) / (union.length : ℚ)

/-- The source's `calculateTextSimilarity` in `query-expansion.ts` is character-for-
character the same function as `calculateJaccardSimilarity`. -/
def calculateTextSimilarity (text1 text2 : List Char) : ℚ :=
  calculateJaccardSimilarity text1 text2

/-! ## Deduplication (`deduplicateResults`, `src/services/query-expansion.ts`
lines 148–199) -/

/-- The condition under which the inner loop of `deduplicateResults` flags
`candidate` as a duplicate of `current`: same filename, both chunk indices
defined and at distance at most 1, and text similarity at least the
threshold. -/
def isDuplicatePair (threshold : ℚ) (current candidate : SearchResult) : Bool :=
  current.filename == candidate.filename &&
    (match current.chunk_index, candidate.chunk_index with
     | some ci, some cj =>
       decide (((ci : Int) - (cj : Int)).natAbs ≤ 1) &&
         decide (threshold ≤ calculateTextSimilarity current.chunk_text candidate.chunk_text)
     | _, _ => false)

/-- The inner loop of `deduplicateResults` restricted to its effect on the
slot holding `current`'s entry: each flagged candidate scoring strictly above
`current` overwrites the slot. -/
def dedupSlot (threshold : ℚ) (current : SearchResult) :
    List SearchResult → SearchResult → SearchResult
  | [], slot => slot
  | cand :: rest, slot =>
    if isDuplicatePair threshold current cand then
      dedupSlot threshold current rest
        (if current.similarity < cand.similarity then cand else slot)
    else
      dedupSlot threshold current rest slot

/-- The outer loop of `deduplicateResults`, structured on a fuel argument so
that it remains structural (the flagged candidates of each round are exactly
the ones the inner loop marks `seen`, so the next round continues on the
unflagged remainder). -/
def deduplicateResultsAux (threshold : ℚ) : Nat → List SearchResult → List SearchResult
  | 0, _ => []
  | _, [] => []
  | fuel + 1, current :: rest =>
    dedupSlot threshold current rest current ::
      deduplicateResultsAux threshold fuel
        (rest.filter (fun cand => !isDuplicatePair threshold current cand))

/-- Source `deduplicateResults`: the fuel `results.length` dominates the number of
outer rounds, since every round consumes at least the current element. -/
def deduplicateResults (threshold : ℚ) (results : List SearchResult) : List SearchResult :=
  deduplicateResultsAux threshold results.length results

/-! ## Reciprocal rank fusion (`reciprocalRankFusion`,
`src/services/query-expansion.ts` lines 234–268) -/

/-- One entry of the insertion-ordered `scoreMap`: the stored result (with
the first-contribution `rerank_score`, as in the source) and the accumulated
RRF score. -/
structure RRFEntry where
  result : SearchResult
  score : ℚ
deriving DecidableEq

/-- A fresh `scoreMap` entry: the result with its first-contribution
`rerank_score`, paired with that score. -/
def rrfNewEntry (r : SearchResult) (rrfScore : ℚ) : RRFEntry :=
  { result := { r with rerank_score := some rrfScore }, score := rrfScore }

/-- One `scoreMap` update: `1 / (k + rank + 1)` is added to an existing entry
with the same id, otherwise a new entry is appended (JS `Map` preserves
insertion order). -/
def rrfAdd (k : ℚ) (m : List RRFEntry) (r : SearchResult) (rank : Nat) : List RRFEntry :=
  let rrfScore := 1 / (k + (rank : ℚ) + 1)
  if m.any (fun e => e.result.id == r.id) then
    m.map (fun e =>
      if e.result.id = r.id then { e with score := e.score + rrfScore } else e)
  else
    m ++ [rrfNewEntry r rrfScore]

/-- Process one ranked list: `results.forEach((result, rank) => …)`. -/
def rrfList (k : ℚ) (m : List RRFEntry) (results : List SearchResult) : List RRFEntry :=
  results.enum.foldl (fun acc p => rrfAdd k acc p.2 p.1) m

/-- Stable insertion into a score-descending list: an element passes every
entry with a score at least its own, as the stable JS sort with comparator
`(a, b) => b.score - a.score` arranges. -/
def rrfInsertSorted (x : RRFEntry) : List RRFEntry → List RRFEntry
  | [] => [x]
  | y :: ys => if y.score < x.score then x :: y :: ys else y :: rrfInsertSorted x ys

/-- Stable sort by descending score. -/
def rrfSortDesc : List RRFEntry → List RRFEntry
  | [] => []
  | x :: xs => rrfInsertSorted x (rrfSortDesc xs)

/-- Source `reciprocalRankFusion`: fold every ranked list into the score map, sort
by descending fused score, and attach the fused score as `rerank_score`. -/
def reciprocalRankFusion (resultSets : List (List SearchResult)) (k : ℚ) :
    List SearchResult :=
  let m := resultSets.foldl (rrfList k) []
  (rrfSortDesc m).map (fun e => { e.result with rerank_score := some e.score })

/-- The 0-based rank of the first result with the given id, `none` when the
list does not contain it. -/
def idxOfId (id : Nat) : List SearchResult → Option Nat
  | [] => none
  | r :: rest => if r.id = id then some 0 else (idxOfId id rest).map (· + 1)

/-- The fused score as the claim words it: the sum over the input lists of
`1 / (k + rank + 1)` at the candidate's 0-based rank in that list, `0` from
lists that do not contain it. -/
def rrfClaimScore (k : ℚ) (resultSets : List (List SearchResult)) (id : Nat) : ℚ :=
  (resultSets.map (fun l =>
    match idxOfId id l with
    | some rank => 1 / (k + (rank : ℚ) + 1)
    | none => 0)).sum

/-- The insertion-ordered keys of the score map. -/
def rrfKeys (m : List RRFEntry) : List Nat :=
  m.map (fun e => e.result.id)

/-- The fused score the map currently assigns to an id (`0` when absent). -/
def rrfLookup (m : List RRFEntry) (id : Nat) : ℚ :=
  match m.find? (fun e => e.result.id == id) with
  | some e => e.score
  | none => 0

/-! ## MMR diversification (`applyMMR` in the `buildSmartContext` version of
`rag.ts`) -/

/-- The MMR score of a candidate against the already selected results:
`λ · relevance + (1 − λ) · (1 − max Jaccard similarity to selected)`. -/
def mmrScore (selected : List SearchResult) (cand : SearchResult) : ℚ :=
  let maxSimilarity := selected.foldl
    (fun m sel => max m (calculateJaccardSimilarity cand.chunk_text sel.chunk_text)) 0
  let diversity := 1 - maxSimilarity
  MMR_DIVERSITY_LAMBDA * cand.similarity + (1 - MMR_DIVERSITY_LAMBDA) * diversity

/-- The argmax scan of `applyMMR`: `maxScore` starts at `-Infinity`, so the
first score always wins the first comparison and only a strictly greater
score later replaces the champion (first maximum wins ties). -/
def jsArgmaxGo : List ℚ → Nat → ℚ → Nat → Nat
  | [], _, _, best => best
  | s :: rest, i, bestVal, best =>
    if bestVal < s then jsArgmaxGo rest (i + 1) s i
    else jsArgmaxGo rest (i + 1) bestVal best

/-- Index of the first maximal element (`0` on the empty list, which the
loop never queries). -/
def jsArgmax : List ℚ → Nat
  | [] => 0
  | s :: rest => jsArgmaxGo rest 1 s 0

/-- The while loop of `applyMMR`: keep extracting the remaining candidate of
maximal MMR score until the candidates are exhausted or `DEFAULT_TOP_K`
results are selected.  The fuel (instantiated with the length of the initial
remainder) dominates the number of iterations, each of which removes one
remaining candidate. -/
def applyMMRLoop : Nat → List SearchResult → List SearchResult → List SearchResult
  | 0, selected, _ => selected
  | fuel + 1, selected, remaining =>
    if remaining = [] ∨ DEFAULT_TOP_K ≤ selected.length then selected
    else
      let maxIdx := jsArgmax (remaining.map (mmrScore selected))
      applyMMRLoop fuel (selected ++ [remaining.getD maxIdx defaultSearchResult])
        (remaining.eraseIdx maxIdx)

/-- Source `applyMMR`: lists of at most one result are returned unchanged; otherwise
the top result is always selected first and the loop fills the rest. -/
def applyMMR (results : List SearchResult) : List SearchResult :=
  if results.length ≤ 1 then results
  else
    match results with
    | [] => []
    | x :: rest => applyMMRLoop rest.length [x] rest

/-! ## Context assembly (`buildContext`, `src/services/rag.ts` lines 31–89)

The source reads the budget from the constant `MAX_CONTEXT_LENGTH`; the
embedding takes it as the parameter `maxContextLength` (the `assemble`
contract of the specification), instantiated with the constant by the
orchestrator below. -/

/-- The truncation marker appended to an over-long first chunk. -/
def truncationMessage : List Char :=
  "\n\n[... truncated for length ...]".toList

/-- The citation marker of the chunk at position `i` of the context:
`[Source i+1: filename, chunk ci+1]`, the chunk part only when the result
has a `chunk_index`. -/
def citation (i : Nat) (r : SearchResult) : List Char :=
  "[Source ".toList ++ (Nat.repr (i + 1)).data ++ ": ".toList ++ r.filename ++
    (match r.chunk_index with
     | some ci => ", chunk ".toList ++ (Nat.repr (ci + 1)).data
     | none => []) ++
    "]".toList

/-- The loop of `buildContext` over the candidates after the first: a
candidate whose citation plus text would push `totalLength` beyond the budget
breaks the loop; otherwise its part (citation, newline, text) is appended
and `totalLength` grows by citation plus text length (the newline is not
counted by the source). -/
def buildContextRest (maxContextLength : Nat) :
    List SearchResult → Nat → Nat → List (List Char)
  | [], _, _ => []
  | r :: rest, i, totalLength =>
    let cit := citation i r
    if maxContextLength < totalLength + r.chunk_text.length + cit.length then []
    else
      (cit ++ '\n' :: r.chunk_text) ::
        buildContextRest maxContextLength rest (i + 1)
          (totalLength + r.chunk_text.length + cit.length)

/-- Running-total charge of each later candidate, starting at citation index
`i`: text length plus citation length, the exact amount `totalLength` grows by
in the source loop (`rag.ts` lines 67 and 76; the newline is uncounted). -/
def contextCharges (i : Nat) : List SearchResult → List Nat
  | [] => []
  | r :: rest =>
    (r.chunk_text.length + (citation i r).length) :: contextCharges (i + 1) rest

/-- JS `contextParts.join('\n\n---\n\n')`. -/
def joinContextSep : List (List Char) → List Char
  | [] => []
  | [p] => p
  | p :: ps => p ++ "\n\n---\n\n".toList ++ joinContextSep ps

/-- The result record of `buildContext`. -/
structure BuildContextResult where
  context : List Char
  sources : List SearchResult
deriving DecidableEq

/-- Source `buildContext`: the first candidate is always included, its text
truncated (with a visible marker) whenever citation plus text overflow the
budget; later candidates are appended while the running total stays within
the budget; the sources are the included prefix of the input. -/
def buildContext (maxContextLength : Nat) (searchResults : List SearchResult) :
    BuildContextResult :=
  match searchResults with
  | [] => { context := [], sources := [] }
  | r :: rest =>
    let cit := citation 0 r
    let citationLength := (cit ++ ['\n']).length
    let partLength := citationLength + r.chunk_text.length
    let chunkText :=
      if maxContextLength < partLength then
        let maxChunkLength := maxContextLength - citationLength - truncationMessage.length
        r.chunk_text.take maxChunkLength ++ truncationMessage
      else r.chunk_text
    let totalLength := citationLength + chunkText.length
    let parts := (cit ++ '\n' :: chunkText) ::
      buildContextRest maxContextLength rest 1 totalLength
    { context := joinContextSep parts,
      sources := searchResults.take parts.length }

/-! ## RAG orchestrator (`askQuestion` / `streamQuestion`,
`src/services/rag.ts` lines 94–223)

The external calls are modelled as explicit inputs: `searchOutcome` is the
result of `searchSimilar` (or the error it threw), and the generator's
behaviour is a list of yielded fragments together with an optional error
thrown afterwards.  Elapsed-time values are parameters. -/

/-- One element of a `sources` stream event. -/
structure SourceInfo where
  id : Nat
  filename : List Char
  chunk_text : List Char
  similarity : ℚ
deriving DecidableEq

/-- The tagged stream event union. -/
inductive StreamEvent where
  | sources : List SourceInfo → StreamEvent
  | chunk : List Char → StreamEvent
  | done : ℚ → StreamEvent
  | error : List Char → StreamEvent
deriving DecidableEq

/-- The fixed fallback answer for the no-results path (built with an explicit
apostrophe character). -/
def fallbackMessage : List Char :=
  "I don".toList ++ [Char.ofNat 39] ++
    "t have enough information to answer that question.".toList

/-- The behaviour of one consumption of `streamAnswer`: the fragments it
yields, and the error it throws afterwards, if any. -/
structure GenStream where
  fragments : List (List Char)
  failure : Option (List Char)
deriving DecidableEq

/-- A source entry of the `RAGResult` record (no id field there). -/
structure RAGSource where
  filename : List Char
  chunk_text : List Char
  similarity : ℚ
deriving DecidableEq

/-- The `RAGResult` record of `askQuestion`. -/
structure RAGResult where
  answer : List Char
  sources : List RAGSource
  question : List Char
deriving DecidableEq

/-- Source `askQuestion` (synchronous mode): a search failure propagates; zero
results short-circuit to the fallback answer with no sources and without
consulting the generator; otherwise the generator's answer is returned with
the sources of the built context. -/
def askQuestion (question : List Char)
    (searchOutcome : Except (List Char) (List SearchResult))
    (genOutcome : Except (List Char) (List Char)) :
    Except (List Char) RAGResult :=
  match searchOutcome with
  | .error e => .error e
  | .ok searchResults =>
    if searchResults = [] then
      .ok { answer := fallbackMessage, sources := [], question := question }
    else
      match genOutcome with
      | .error e => .error e
      | .ok answer =>
        let bc := buildContext MAX_CONTEXT_LENGTH searchResults
        .ok { answer := answer,
              sources := bc.sources.map (fun r =>
                { filename := r.filename, chunk_text := r.chunk_text,
                  similarity := r.similarity }),
              question := question }

/-- Source `streamQuestion` (streaming mode): the whole pipeline runs inside one
`try`; a search failure yields a single `error` event; zero results yield the
fallback `chunk` and `done`; otherwise a `sources` event, the generator's
fragments as `chunk` events, and `done` — or, if the generator throws after
some fragments, a terminal `error` event instead. -/
def streamQuestion (searchOutcome : Except (List Char) (List SearchResult))
    (gen : GenStream) (tookNoResults tookDone : ℚ) : List StreamEvent :=
  match searchOutcome with
  | .error e => [.error e]
  | .ok searchResults =>
    if searchResults = [] then
      [.chunk fallbackMessage, .done tookNoResults]
    else
      let bc := buildContext MAX_CONTEXT_LENGTH searchResults
      .sources (bc.sources.map (fun r =>
          { id := r.id, filename := r.filename, chunk_text := r.chunk_text,
            similarity := r.similarity })) ::
        (gen.fragments.map StreamEvent.chunk ++
          match gen.failure with
          | some e => [.error e]
          | none => [.done tookDone])

/-- Event classifiers for the stream-protocol invariants. -/
def isSourcesEvent : StreamEvent → Bool
  | .sources _ => true
  | _ => false

def isChunkEvent : StreamEvent → Bool
  | .chunk _ => true
  | _ => false

def isTerminalEvent : StreamEvent → Bool
  | .done _ => true
  | .error _ => true
  | _ => false

def isErrorEvent : StreamEvent → Bool
  | .error _ => true
  | _ => false

/-- Once a `chunk` event has occurred, no `sources` event may follow. -/
def sourcesBeforeChunks : List StreamEvent → Bool
  | [] => true
  | e :: rest =>
    if isChunkEvent e then rest.all (fun x => !isSourcesEvent x)
    else sourcesBeforeChunks rest

/-! ## Text segmentation (`src/utils/text.ts`)

`chunkText` (lines 559–588), `detectSemanticUnits`/`splitProseUnit`/
`semanticChunking` (lines 593–810) and `splitIntoSentences` (lines 52–67). -/

/-- JS `words.join(' ')`. -/
def joinSpace (ws : List (List Char)) : List Char :=
  List.intercalate [' '] ws

/-- One step of the word-packing loop of `chunkText`; the accumulator is the
pair of finished chunks and the chunk being built. -/
def chunkTextStep (acc : List (List Char) × List Char) (word : List Char) :
    List (List Char) × List Char :=
  let currentChunk := acc.2
  let testChunk := currentChunk ++ (if currentChunk = [] then [] else [' ']) ++ word
  if CHUNK_SIZE < testChunk.length ∧ 0 < currentChunk.length then
    let overlapWords := ((jsSplitWS currentChunk).reverse.take (CHUNK_OVERLAP / 10)).reverse
    (acc.1 ++ [jsTrim currentChunk], joinSpace overlapWords ++ ' ' :: word)
  else
    (acc.1, testChunk)

/-- Source `chunkText`: greedy word packing with a trailing-word overlap carried
into the next chunk (`slice(-Math.floor(CHUNK_OVERLAP / 10))`), the final
chunk flushed if its trim is non-empty, and chunks below `MIN_CHUNK_SIZE`
filtered out. -/
def chunkText (text : List Char) : List (List Char) :=
  let words := jsSplitWS text
  let state := words.foldl chunkTextStep ([], [])
  let chunks :=
    if 0 < (jsTrim state.2).length then state.1 ++ [jsTrim state.2] else state.1
  chunks.filter (fun c => MIN_CHUNK_SIZE ≤ c.length)

/-- Sentence terminators of the `splitIntoSentences` regex. -/
def isSentenceTerm (c : Char) : Bool :=
  c = '.' || c = '!' || c = '?'

/-- The global-exec loop over `/[^.!?]+[.!?]+(?:\s+|$)/g`: at each candidate
start, a maximal non-terminator run (at least one character), a maximal
terminator run (at least one), then either a whitespace run or the end of the
string; on failure the engine effectively resumes at the next position at
which a match could begin. -/
def sentencesGo : List Char → List (List Char)
  | [] => []
  | c :: rest =>
    if isSentenceTerm c then sentencesGo rest
    else
      -- here `c` is a non-terminator, so the maximal non-terminator run of
      -- `c :: rest` is `c` followed by the one of `rest`
      let body := c :: rest.takeWhile (fun x => !isSentenceTerm x)
      let after1 := rest.dropWhile (fun x => !isSentenceTerm x)
      match after1 with
      | [] => []
      | _ :: _ =>
        let terms := after1.takeWhile isSentenceTerm
        let after2 := after1.dropWhile isSentenceTerm
        match after2 with
        | [] => [jsTrim (body ++ terms)]
        | d :: _ =>
          if d.isWhitespace then
            let ws := after2.takeWhile Char.isWhitespace
            let after3 := after2.dropWhile Char.isWhitespace
            jsTrim (body ++ terms ++ ws) :: sentencesGo after3
          else
            sentencesGo after2
termination_by cs => cs.length
decreasing_by
  · exact Nat.lt_succ_self _
  · refine Nat.lt_succ_of_le (le_trans (List.dropWhile_sublist _).length_le
      (le_trans (List.dropWhile_sublist _).length_le (List.dropWhile_sublist _).length_le))
  · exact Nat.lt_succ_of_le (le_trans (List.dropWhile_sublist _).length_le
      (List.dropWhile_sublist _).length_le)

/-- Source `splitIntoSentences`: the matches of the sentence regex (each trimmed),
or the whole text as a single sentence when there are none. -/
def splitIntoSentences (text : List Char) : List (List Char) :=
  let sentences := sentencesGo text
  if sentences = [] then [text] else sentences

/-- One step of the sentence-packing loop of `splitProseUnit`. -/
def proseStep (acc : List (List Char) × List Char) (sentence : List Char) :
    List (List Char) × List Char :=
  let currentChunk := acc.2
  let candidateChunk :=
    if currentChunk = [] then sentence else currentChunk ++ ' ' :: sentence
  if CHUNK_SIZE < candidateChunk.length ∧ 0 < currentChunk.length then
    (acc.1 ++ [jsTrim currentChunk], sentence)
  else
    (acc.1, candidateChunk)

/-- Source `splitProseUnit`: texts within `CHUNK_SIZE` stay whole; a single over-long
sentence degrades to `chunkText`; otherwise sentences are packed and chunks
below `MIN_CHUNK_SIZE` are filtered out. -/
def splitProseUnit (text : List Char) : List (List Char) :=
  if text.length ≤ CHUNK_SIZE then [text]
  else
    let sentences := splitIntoSentences text
    if sentences.length = 1 then chunkText text
    else
      let state := sentences.foldl proseStep ([], [])
      let chunks :=
        if jsTrim state.2 ≠ [] then state.1 ++ [jsTrim state.2] else state.1
      chunks.filter (fun c => MIN_CHUNK_SIZE ≤ c.length)

/-- The structural tags of `detectSemanticUnits`. -/
inductive UnitType where
  | code
  | sql
  | list
  | prose
deriving DecidableEq

/-- A tagged semantic unit. -/
structure SemanticUnit where
  content : List Char
  type : UnitType
deriving DecidableEq

/-- The SQL keywords of `/^\s*(CREATE|SELECT|INSERT|UPDATE|DELETE|WITH|ALTER|DROP)\s+/i`. -/
def sqlKeywords : List (List Char) :=
  ["create".toList, "select".toList, "insert".toList, "update".toList,
   "delete".toList, "with".toList, "alter".toList, "drop".toList]

/-- Case-insensitive keyword match requiring a whitespace character right
after the keyword (the `\s+` of the regex). -/
def matchKeywordCI : List Char → List Char → Bool
  | [], c :: _ => c.isWhitespace
  | [], [] => false
  | _ :: _, [] => false
  | kc :: ks, c :: cs => (Char.toLower c = kc) && matchKeywordCI ks cs

/-- The anchored SQL-keyword test (leading whitespace allowed). -/
def sqlKeywordTest (line : List Char) : Bool :=
  sqlKeywords.any (fun kw => matchKeywordCI kw (line.dropWhile Char.isWhitespace))

/-- The anchored bullet alternative `^\s*[-*•]\s+` of the list pattern. -/
def bulletTest (line : List Char) : Bool :=
  match line.dropWhile Char.isWhitespace with
  | c :: d :: _ => (c = '-' || c = '*' || c = '•') && d.isWhitespace
  | _ => false

/-- A one-pass automaton for the unanchored alternative `\d+\.\s+` of the
list pattern (the source regex only anchors its first alternative): state 1
after a digit run, state 2 after a digit run followed by a dot; a whitespace
character in state 2 accepts. -/
def numDotWsAux : Nat → List Char → Bool
  | _, [] => false
  | st, c :: rest =>
    if st = 2 ∧ c.isWhitespace then true
    else if c.isDigit then numDotWsAux 1 rest
    else if st = 1 ∧ c = '.' then numDotWsAux 2 rest
    else numDotWsAux 0 rest

/-- The test `listPattern.test(line)` for `/^\s*[-*•]\s+|\d+\.\s+/`. -/
def listPatternTest (line : List Char) : Bool :=
  bulletTest line || numDotWsAux 0 line

/-- The mutable state of the line scan of `detectSemanticUnits`. -/
structure DSUState where
  units : List SemanticUnit
  currentUnit : List Char
  currentType : UnitType
  inCodeBlock : Bool
  inSqlBlock : Bool
  inList : Bool
deriving DecidableEq

/-- The initial scan state. -/
def dsuInit : DSUState :=
  { units := [], currentUnit := [], currentType := .prose,
    inCodeBlock := false, inSqlBlock := false, inList := false }

/-- Flush a trimmed unit onto the accumulator when its trim is non-empty. -/
def dsuPush (units : List SemanticUnit) (content : List Char) (t : UnitType) :
    List SemanticUnit :=
  if jsTrim content ≠ [] then units ++ [{ content := jsTrim content, type := t }]
  else units

/-- One line of the `detectSemanticUnits` scan, following the source's
branch order: fence toggling, code accumulation, SQL start, SQL body/end,
list start, list end (falling through), paragraph break, plain accumulation. -/
def dsuStep (st : DSUState) (line : List Char) : DSUState :=
  let trimmedLine := jsTrim line
  if ("```".toList).isPrefixOf trimmedLine then
    if !st.inCodeBlock then
      { st with
        units := dsuPush st.units st.currentUnit st.currentType,
        currentUnit := line ++ ['\n'],
        currentType := .code,
        inCodeBlock := true }
    else
      { st with
        units := st.units ++ [{ content := jsTrim (st.currentUnit ++ line ++ ['\n']),
                                type := .code }],
        currentUnit := [],
        currentType := .prose,
        inCodeBlock := false }
  else if st.inCodeBlock then
    { st with currentUnit := st.currentUnit ++ line ++ ['\n'] }
  else if sqlKeywordTest line then
    let flush := jsTrim st.currentUnit ≠ [] ∧ !st.inSqlBlock
    { st with
      units := if flush then st.units ++ [{ content := jsTrim st.currentUnit,
                                            type := st.currentType }] else st.units,
      currentUnit := (if flush then [] else st.currentUnit) ++ line ++ ['\n'],
      currentType := .sql,
      inSqlBlock := true }
  else if st.inSqlBlock then
    let cu := st.currentUnit ++ line ++ ['\n']
    if line.contains ';' ∨ (trimmedLine = [] ∧ jsTrim cu ≠ []) then
      { st with
        units := st.units ++ [{ content := jsTrim cu, type := .sql }],
        currentUnit := [],
        currentType := .prose,
        inSqlBlock := false }
    else
      { st with currentUnit := cu }
  else if listPatternTest line then
    let flush := !st.inList ∧ jsTrim st.currentUnit ≠ []
    { st with
      units := if flush then st.units ++ [{ content := jsTrim st.currentUnit,
                                            type := st.currentType }] else st.units,
      currentUnit := (if flush then [] else st.currentUnit) ++ line ++ ['\n'],
      currentType := .list,
      inList := true }
  else
    let st1 :=
      if st.inList ∧ trimmedLine ≠ [] then
        { st with
          units := dsuPush st.units st.currentUnit .list,
          currentUnit := if jsTrim st.currentUnit ≠ [] then [] else st.currentUnit,
          currentType := .prose,
          inList := false }
      else st
    if trimmedLine = [] then
      { st1 with
        units := dsuPush st1.units st1.currentUnit st1.currentType,
        currentUnit := if jsTrim st1.currentUnit ≠ [] then [] else st1.currentUnit,
        inList := if jsTrim st1.currentUnit ≠ [] then false else st1.inList }
    else
      { st1 with currentUnit := st1.currentUnit ++ line ++ ['\n'] }

/-- Source `detectSemanticUnits`: scan the lines, flush the final unit, and keep
only units of at least `MIN_CHUNK_SIZE` characters. -/
def detectSemanticUnits (text : List Char) : List SemanticUnit :=
  let lines := text.splitOn '\n'
  let final := lines.foldl dsuStep dsuInit
  let units := dsuPush final.units final.currentUnit final.currentType
  units.filter (fun u => MIN_CHUNK_SIZE ≤ u.content.length)

/-- Processing of one detected unit in `semanticChunking`: code, SQL and list
units are kept intact; over-long prose is split. -/
def processUnit (u : SemanticUnit) : List (List Char) :=
  match u.type with
  | .prose => if CHUNK_SIZE < u.content.length then splitProseUnit u.content else [u.content]
  | _ => [u.content]

/-- One step of the small-unit recombination loop of `semanticChunking`. -/
def combineStep (acc : List (List Char) × List Char) (unit : List Char) :
    List (List Char) × List Char :=
  let currentChunk := acc.2
  let candidateChunk :=
    if currentChunk = [] then unit else currentChunk ++ '\n' :: '\n' :: unit
  if CHUNK_SIZE < candidateChunk.length ∧ jsTrim currentChunk ≠ [] then
    (acc.1 ++ [jsTrim currentChunk], unit)
  else
    (acc.1, candidateChunk)

/-- The main path of `semanticChunking` once more than one unit survived (or
a single over-long one): process the units, recombine adjacent small ones,
flush, and filter by `MIN_CHUNK_SIZE`. -/
def semanticChunkingMain (units : List SemanticUnit) : List (List Char) :=
  let processedUnits := units.foldl (fun acc u => acc ++ processUnit u) []
  let state := processedUnits.foldl combineStep ([], [])
  let chunks :=
    if jsTrim state.2 ≠ [] then state.1 ++ [jsTrim state.2] else state.1
  chunks.filter (fun c => MIN_CHUNK_SIZE ≤ c.length)

/-- Source `semanticChunking`: empty or whitespace input gives no chunk; when no
unit survives detection the whole text is returned as one chunk; a surviving
single unit within `CHUNK_SIZE` is returned alone; otherwise the main path
runs. -/
def semanticChunking (text : List Char) : List (List Char) :=
  if jsTrim text = [] then []
  else
    match detectSemanticUnits text with
    | [] => [text]
    | [u] =>
      if u.content.length ≤ CHUNK_SIZE then [u.content]
      else semanticChunkingMain [u]
    | units => semanticChunkingMain units

/-! ## Codec lemmas and claims C5, C6 -/

theorem decodeWords_encodeWord32_append (w : Nat) (hw : w < 2 ^ 32) (rest : List Nat) :
    decodeWords (encodeWord32 w ++ rest) = w :: decodeWords rest := by
  show decodeWord32 (w % 256) (w / 256 % 256) (w / 256 / 256 % 256)
    (w / 256 / 256 / 256 % 256) :: decodeWords rest = w :: decodeWords rest
  simp only [decodeWord32]
  congr 1
  omega

theorem decodeWords_flatten_map (ws : List Nat) (h : ∀ w ∈ ws, w < 2 ^ 32) :
    decodeWords ((ws.map encodeWord32).flatten) = ws := by
  induction ws with
  | nil => rfl
  | cons w tl ih =>
    simp only [List.map_cons, List.flatten_cons]
    rw [decodeWords_encodeWord32_append w (h w (by simp)),
      ih (fun x hx => h x (by simp [hx]))]

theorem length_flatten_map_encode (ws : List Nat) :
    ((ws.map encodeWord32).flatten).length = 4 * ws.length := by
  induction ws with
  | nil => rfl
  | cons w tl ih =>
    simp only [List.map_cons, List.flatten_cons, List.length_append, ih,
      encodeWord32, List.length_cons, List.length_nil]
    omega

theorem length_flatten_uniform (d : Nat) (vs : List (List Nat))
    (h : ∀ r ∈ vs, r.length = d) : vs.flatten.length = vs.length * d := by
  induction vs with
  | nil => simp
  | cons v tl ih =>
    simp only [List.flatten_cons, List.length_append, List.length_cons,
      h v (by simp), ih (fun r hr => h r (by simp [hr]))]
    ring

theorem writeRows_eq_flatten (d : Nat) :
    ∀ (rows : List (List Nat)) (i : Nat) (done todo : List Nat),
      done.length = i * d → (∀ r ∈ rows, r.length = d) →
      todo.length = rows.length * d →
      writeRows d rows i (done ++ todo) = done ++ rows.flatten := by
  intro rows
  induction rows with
  | nil =>
    intro i done todo _ _ htodo
    simp only [List.length_nil, Nat.zero_mul] at htodo
    simp [writeRows, List.eq_nil_of_length_eq_zero htodo]
  | cons r rest ih =>
    intro i done todo hdone hrows htodo
    have hr : r.length = d := hrows r (by simp)
    have hset : setSegment (done ++ todo) (i * d) r = (done ++ r) ++ todo.drop d := by
      simp only [setSegment, List.take_left' hdone, hr]
      have hdrop : (done ++ todo).drop (i * d + d) = todo.drop d := by
        have : i * d + d = done.length + d := by omega
        rw [this, List.drop_append]
      rw [hdrop, List.append_assoc]
    show writeRows d rest (i + 1) (setSegment (done ++ todo) (i * d) r) =
      done ++ (r :: rest).flatten
    rw [hset, ih (i + 1) (done ++ r) (todo.drop d)
      (by simp only [List.length_append, hdone, hr]; ring)
      (fun x hx => hrows x (by simp [hx]))
      (by simp only [List.length_drop, htodo, List.length_cons]; ring_nf; omega)]
    simp [List.flatten_cons, List.append_assoc]

theorem slices_flatten (d : Nat) :
    ∀ (vs : List (List Nat)), (∀ r ∈ vs, r.length = d) →
      (List.range vs.length).map (fun i => ((vs.flatten).drop (i * d)).take d) = vs := by
  intro vs
  induction vs with
  | nil => simp
  | cons v rest ih =>
    intro h
    have hv : v.length = d := h v (by simp)
    simp only [List.length_cons, List.range_succ_eq_map, List.map_cons, List.map_map,
      List.flatten_cons]
    refine List.cons_eq_cons.2 ⟨?_, ?_⟩
    · simp [List.take_left' hv]
    · have hmap : ∀ i ∈ List.range rest.length,
          (Function.comp (fun i => ((v ++ rest.flatten).drop (i * d)).take d) Nat.succ) i =
            ((rest.flatten.drop (i * d)).take d) := by
        intro i _
        have hstep : Nat.succ i * d = v.length + i * d := by rw [hv, Nat.succ_mul]; ring
        simp only [Function.comp_apply, hstep, List.drop_append]
      rw [List.map_congr_left hmap, ih (fun r hr => h r (by simp [hr]))]

theorem deserialize_serialize_vectors (v0 : List Nat) (rest : List (List Nat))
    (hdim : ∀ r ∈ v0 :: rest, r.length = v0.length)
    (hbound : ∀ r ∈ v0 :: rest, ∀ x ∈ r, x < 2 ^ 32)
    (hcount : (v0 :: rest).length < 2 ^ 32) (hd32 : v0.length < 2 ^ 32) :
    deserializeVectors (serializeVectors (v0 :: rest)) = v0 :: rest := by
  set vs := v0 :: rest with hvs
  have hflatbound : ∀ w ∈ vs.flatten, w < 2 ^ 32 := by
    intro w hw
    obtain ⟨r, hr, hwr⟩ := List.mem_flatten.1 hw
    exact hbound r hr w hwr
  have hwrite : writeRows v0.length vs 0 (List.replicate (vs.length * v0.length) 0) =
      vs.flatten := by
    have := writeRows_eq_flatten v0.length vs 0 [] (List.replicate (vs.length * v0.length) 0)
      (by simp) hdim (by simp)
    simpa using this
  show deserializeVectors
    (encodeWord32 vs.length ++ encodeWord32 v0.length ++
      ((writeRows v0.length vs 0 (List.replicate (vs.length * v0.length) 0)).map
        encodeWord32).flatten) = vs
  rw [hwrite]
  set flat := (vs.flatten.map encodeWord32).flatten with hflat
  have hbuf : encodeWord32 vs.length ++ encodeWord32 v0.length ++ flat =
      vs.length % 256 :: vs.length / 256 % 256 :: vs.length / 256 / 256 % 256 ::
      vs.length / 256 / 256 / 256 % 256 :: v0.length % 256 :: v0.length / 256 % 256 ::
      v0.length / 256 / 256 % 256 :: v0.length / 256 / 256 / 256 % 256 :: flat := by
    simp [encodeWord32]
  rw [hbuf, deserializeVectors]
  rw [if_neg (by simp)]
  simp only [List.getD_cons_zero, List.getD_cons_succ, List.drop_succ_cons,
    List.drop_zero]
  have hc : decodeWord32 (vs.length % 256) (vs.length / 256 % 256)
      (vs.length / 256 / 256 % 256) (vs.length / 256 / 256 / 256 % 256) = vs.length := by
    simp only [decodeWord32]; omega
  have hd : decodeWord32 (v0.length % 256) (v0.length / 256 % 256)
      (v0.length / 256 / 256 % 256) (v0.length / 256 / 256 / 256 % 256) = v0.length := by
    simp only [decodeWord32]; omega
  rw [hc, hd, decodeWords_flatten_map vs.flatten hflatbound]
  exact slices_flatten v0.length vs hdim

/-- C5: the multi-vector codec round-trips every (dimension-uniform) vector
list, including the empty list, and the single-vector codec round-trips every
vector; decoding an empty byte buffer yields the empty vector list.  Vector
entries are float32 bit patterns, i.e. naturals below `2 ^ 32`, on which the
byte-level round-trip is exact. -/
theorem C5_codec_roundtrip :
    (∀ v : List Nat, (∀ x ∈ v, x < 2 ^ 32) →
      deserializeVector (serializeVector v) = v)
    ∧ (∀ (v0 : List Nat) (rest : List (List Nat)),
        (∀ r ∈ v0 :: rest, r.length = v0.length) →
        (∀ r ∈ v0 :: rest, ∀ x ∈ r, x < 2 ^ 32) →
        (v0 :: rest).length < 2 ^ 32 → v0.length < 2 ^ 32 →
        deserializeVectors (serializeVectors (v0 :: rest)) = v0 :: rest)
    ∧ deserializeVectors (serializeVectors []) = []
    ∧ deserializeVectors [] = [] := by
  refine ⟨fun v hv => decodeWords_flatten_map v hv, deserialize_serialize_vectors, rfl, rfl⟩

/-- Witness for C5 at concrete inputs. -/
theorem C5_codec_roundtrip_witness :
    deserializeVector (serializeVector [1, 4294967295]) = [1, 4294967295]
    ∧ deserializeVectors (serializeVectors [[5, 6], [7, 8]]) = [[5, 6], [7, 8]] := by
  constructor
  · exact C5_codec_roundtrip.1 [1, 4294967295] (by decide)
  · exact C5_codec_roundtrip.2.1 [5, 6] [[7, 8]] (by decide) (by decide) (by decide) (by decide)

/-- C6 (amended): the single-vector encoding of a vector of dimension `D` is
exactly `4·D` bytes, and the multi-vector encoding of `N ≥ 1` vectors of
dimension `D` is exactly `8 + 4·N·D` bytes — but the encoding of zero vectors
is `0` bytes, not the `8` bytes the `8 + 4·N·D` formula would give. -/
theorem C6_encoding_length :
    (∀ v : List Nat, (serializeVector v).length = 4 * v.length)
    ∧ (∀ (v0 : List Nat) (rest : List (List Nat)),
        (∀ r ∈ v0 :: rest, r.length = v0.length) →
        (serializeVectors (v0 :: rest)).length = 8 + 4 * ((v0 :: rest).length * v0.length))
    ∧ (serializeVectors []).length = 0 := by
  refine ⟨fun v => length_flatten_map_encode v, fun v0 rest hdim => ?_, rfl⟩
  have hwrite : writeRows v0.length (v0 :: rest) 0
      (List.replicate ((v0 :: rest).length * v0.length) 0) = (v0 :: rest).flatten := by
    have := writeRows_eq_flatten v0.length (v0 :: rest) 0 []
      (List.replicate ((v0 :: rest).length * v0.length) 0) (by simp) hdim (by simp)
    simpa using this
  show (encodeWord32 (v0 :: rest).length ++ encodeWord32 v0.length ++
    ((writeRows v0.length (v0 :: rest) 0
      (List.replicate ((v0 :: rest).length * v0.length) 0)).map encodeWord32).flatten).length
    = 8 + 4 * ((v0 :: rest).length * v0.length)
  rw [hwrite]
  simp only [List.length_append, length_flatten_map_encode,
    length_flatten_uniform v0.length (v0 :: rest) hdim, encodeWord32,
    List.length_cons, List.length_nil]

/-- Counterexample to C6 as stated: for `N = 0` the encoding is `0` bytes,
not the `8 + 4·0·D = 8` bytes of the claimed formula. -/
theorem C6_encoding_length_counterexample :
    ¬ ((serializeVectors ([] : List (List Nat))).length = 8 + 4 * 0 * 0) := by
  decide

/-- Witness for C6 at concrete inputs. -/
theorem C6_encoding_length_witness :
    (serializeVector [3, 4, 5]).length = 4 * 3
    ∧ (serializeVectors [[5, 6], [7, 8]]).length = 8 + 4 * (2 * 2) := by
  exact ⟨C6_encoding_length.1 [3, 4, 5], C6_encoding_length.2.1 [5, 6] [[7, 8]] (by decide)⟩

/-! ## Stream protocol lemmas and claims C2, C3 -/

theorem countP_sources_chunks_append (frags : List (List Char)) (t : StreamEvent) :
    ((frags.map StreamEvent.chunk) ++ [t]).countP (fun e => isSourcesEvent e)
      = if isSourcesEvent t then 1 else 0 := by
  induction frags with
  | nil => simp [List.countP_cons]
  | cons f fs ih => simp [List.countP_cons, isSourcesEvent, ih]

theorem countP_terminal_chunks_append (frags : List (List Char)) (t : StreamEvent) :
    ((frags.map StreamEvent.chunk) ++ [t]).countP (fun e => isTerminalEvent e)
      = if isTerminalEvent t then 1 else 0 := by
  induction frags with
  | nil => simp [List.countP_cons]
  | cons f fs ih => simp [List.countP_cons, isTerminalEvent, ih]

theorem all_not_sources_chunks_append (frags : List (List Char)) (t : StreamEvent)
    (ht : isSourcesEvent t = false) :
    ((frags.map StreamEvent.chunk) ++ [t]).all (fun x => !isSourcesEvent x) = true := by
  induction frags with
  | nil => simp [ht]
  | cons f fs ih => simpa [isSourcesEvent] using ih

theorem sourcesBeforeChunks_chunks_append (frags : List (List Char)) (t : StreamEvent)
    (ht : isSourcesEvent t = false) :
    sourcesBeforeChunks ((frags.map StreamEvent.chunk) ++ [t]) = true := by
  induction frags with
  | nil =>
    cases h : isChunkEvent t <;> simp [sourcesBeforeChunks, h]
  | cons f fs _ =>
    simp only [List.map_cons, List.cons_append, sourcesBeforeChunks, isChunkEvent,
      if_true]
    exact all_not_sources_chunks_append fs t ht

theorem getLast_cons_append (a : StreamEvent) (l : List StreamEvent) (t : StreamEvent) :
    (a :: (l ++ [t])).getLast? = some t := by
  rw [← List.cons_append, List.getLast?_concat]

/-- C2: when zero candidates survive, the synchronous orchestrator returns
the fixed fallback answer with an empty sources list, and the streaming
orchestrator emits exactly a `chunk` with the fallback message followed by
`done` — independently of the generator, which is therefore never consulted. -/
theorem C2_no_results_shortcircuit :
    ∀ (gen : GenStream) (tookNoResults tookDone : ℚ) (question : List Char)
      (genOutcome : Except (List Char) (List Char)),
      streamQuestion (.ok []) gen tookNoResults tookDone =
        [.chunk fallbackMessage, .done tookNoResults]
      ∧ askQuestion question (.ok []) genOutcome =
          .ok { answer := fallbackMessage, sources := [], question := question } := by
  intro gen t1 t2 q g
  exact ⟨rfl, rfl⟩

/-- C3: every event sequence the streaming orchestrator can produce has at
most one `sources` event, no `sources` event after a `chunk` event, exactly
one terminal event, which is last; a search failure or a generator failure
surfaces as that terminal `error` event instead of an exception. -/
theorem C3_stream_protocol :
    ∀ (searchOutcome : Except (List Char) (List SearchResult)) (gen : GenStream)
      (tookNoResults tookDone : ℚ),
      (streamQuestion searchOutcome gen tookNoResults tookDone).countP
          (fun e => isSourcesEvent e) ≤ 1
      ∧ sourcesBeforeChunks (streamQuestion searchOutcome gen tookNoResults tookDone) = true
      ∧ (streamQuestion searchOutcome gen tookNoResults tookDone).countP
          (fun e => isTerminalEvent e) = 1
      ∧ (∃ e, (streamQuestion searchOutcome gen tookNoResults tookDone).getLast? = some e
          ∧ isTerminalEvent e = true)
      ∧ (∀ err, searchOutcome = .error err →
          (streamQuestion searchOutcome gen tookNoResults tookDone).getLast?
            = some (.error err))
      ∧ (∀ rs f, searchOutcome = .ok rs → rs ≠ [] → gen.failure = some f →
          (streamQuestion searchOutcome gen tookNoResults tookDone).getLast?
            = some (.error f)) := by
  intro searchOutcome gen t1 t2
  match searchOutcome with
  | .error e =>
    refine ⟨by simp [streamQuestion, List.countP_cons, isSourcesEvent], ?_, ?_, ?_, ?_, ?_⟩
    · simp [streamQuestion, sourcesBeforeChunks, isChunkEvent]
    · simp [streamQuestion, List.countP_cons, isTerminalEvent]
    · exact ⟨.error e, by simp [streamQuestion], rfl⟩
    · intro err herr
      simp only [Except.error.injEq] at herr
      simp [streamQuestion, herr]
    · intro rs f hok
      exact absurd hok (by simp)
  | .ok rs =>
    by_cases hrs : rs = []
    · subst hrs
      refine ⟨by simp [streamQuestion, List.countP_cons, isSourcesEvent], ?_, ?_, ?_, ?_, ?_⟩
      · simp [streamQuestion, sourcesBeforeChunks, isChunkEvent, isSourcesEvent]
      · simp [streamQuestion, List.countP_cons, isTerminalEvent]
      · exact ⟨.done t1, by simp [streamQuestion], rfl⟩
      · intro err herr
        exact absurd herr (by simp)
      · intro rs' f hok hne
        simp only [Except.ok.injEq] at hok
        exact absurd hok.symm hne
    · set t : StreamEvent := (match gen.failure with
        | some e => StreamEvent.error e
        | none => StreamEvent.done t2) with hterm
      have htail : (match gen.failure with
          | some e => [StreamEvent.error e]
          | none => [StreamEvent.done t2]) = [t] := by
        cases h : gen.failure <;> simp [hterm, h]
      have hev : streamQuestion (.ok rs) gen t1 t2 =
          .sources ((buildContext MAX_CONTEXT_LENGTH rs).sources.map (fun r =>
            { id := r.id, filename := r.filename, chunk_text := r.chunk_text,
              similarity := r.similarity })) ::
            (gen.fragments.map StreamEvent.chunk ++ [t]) := by
        rw [← htail]
        simp [streamQuestion, hrs]
      have hterm_not_sources : isSourcesEvent t = false := by
        cases h : gen.failure <;> simp [hterm, isSourcesEvent, h]
      have hterm_terminal : isTerminalEvent t = true := by
        cases h : gen.failure <;> simp [hterm, isTerminalEvent, h]
      refine ⟨?_, ?_, ?_, ?_, ?_, ?_⟩
      · rw [hev, List.countP_cons, countP_sources_chunks_append, hterm_not_sources]
        simp [isSourcesEvent]
      · rw [hev]
        simp only [sourcesBeforeChunks, isChunkEvent]
        exact sourcesBeforeChunks_chunks_append _ _ hterm_not_sources
      · rw [hev, List.countP_cons, countP_terminal_chunks_append, hterm_terminal]
        simp [isTerminalEvent]
      · exact ⟨t, by rw [hev, getLast_cons_append], hterm_terminal⟩
      · intro err herr
        exact absurd herr (by simp)
      · intro rs' f hok hne hfail
        rw [hev, getLast_cons_append]
        simp [hterm, hfail]

/-- Witness for C3 at a concrete run with a generator failure. -/
theorem C3_stream_protocol_witness :
    ((Except.ok [defaultSearchResult] : Except (List Char) (List SearchResult))
        = .ok [defaultSearchResult])
    ∧ ([defaultSearchResult] : List SearchResult) ≠ []
    ∧ (GenStream.mk [['a']] (some ['e'])).failure = some ['e']
    ∧ (streamQuestion (.ok [defaultSearchResult]) (GenStream.mk [['a']] (some ['e'])) 0 0).getLast?
        = some (.error ['e']) := by
  refine ⟨rfl, by simp, rfl, ?_⟩
  exact (C3_stream_protocol (.ok [defaultSearchResult]) (GenStream.mk [['a']] (some ['e'])) 0 0).2.2.2.2.2
    [defaultSearchResult] ['e'] rfl (by simp) rfl

/-! ## Hybrid scoring: claim C4 -/

theorem foldl_max_max (g : List ℚ → ℚ) (l : List (List ℚ)) :
    ∀ a b : ℚ, l.foldl (fun m x => max m (g x)) (max a b)
      = max a (l.foldl (fun m x => max m (g x)) b) := by
  induction l with
  | nil => intro a b; rfl
  | cons y tl ih =>
    intro a b
    show tl.foldl (fun m x => max m (g x)) (max (max a b) (g y))
      = max a (tl.foldl (fun m x => max m (g x)) (max b (g y)))
    rw [max_assoc, ih]

/-- C4 (amended): the hybrid score is
`intentSimilarity × W_intent + contentSimilarity × W_content`, with
`intentSimilarity` the maximum of `0` and the similarities to the stored
intent vectors — the accumulator of the `Math.max` loop starts at `0`, so a
candidate whose intent similarities are all negative scores `0` intent, not
its (negative) maximum similarity as the claim states. -/
theorem C4_hybrid_score :
    ∀ (sim : List ℚ → List ℚ → ℚ) (queryEmbedding : List ℚ) (doc : DocumentRow),
      documentHybridScore sim queryEmbedding doc
        = max 0 (specIntentSimilarity sim queryEmbedding doc.question_embeddings)
            * QUESTION_WEIGHT
          + sim queryEmbedding doc.embedding * CONTENT_WEIGHT := by
  intro sim q doc
  show doc.question_embeddings.foldl (fun m qe => max m (sim q qe)) 0 * QUESTION_WEIGHT
    + sim q doc.embedding * CONTENT_WEIGHT = _
  congr 2
  match doc.question_embeddings with
  | [] => simp [specIntentSimilarity]
  | qe :: rest =>
    show rest.foldl (fun m x => max m (sim q x)) (max 0 (sim q qe))
      = max 0 (specIntentSimilarity sim q (qe :: rest))
    rw [foldl_max_max (sim q) rest 0 (sim q qe)]
    rfl

/-- Counterexample to C4 as stated: with the (exactly representable) unit
vectors `q = [1, 0]` and intent vector `[-1, 0]`, whose cosine similarity
equals their dot product `-1`, the code's hybrid score clamps the intent
contribution at `0` while the claimed formula uses the negative maximum. -/
theorem C4_hybrid_score_counterexample :
    documentHybridScore dotProductQ [1, 0]
        { id := 0, filename := [], chunk_text := [], chunk_index := none,
          embedding := [1, 0], question_embeddings := [[-1, 0]] }
      ≠ specHybridScore dotProductQ [1, 0]
          { id := 0, filename := [], chunk_text := [], chunk_index := none,
            embedding := [1, 0], question_embeddings := [[-1, 0]] } := by
  with_unfolding_all decide

/-! ## MMR lemmas and claim C10 -/

theorem jsArgmaxGo_lt (bound : Nat) :
    ∀ (rest : List ℚ) (i : Nat) (v : ℚ) (b : Nat), b < bound →
      i + rest.length ≤ bound → jsArgmaxGo rest i v b < bound := by
  intro rest
  induction rest with
  | nil => intro i v b hb _; exact hb
  | cons s tl ih =>
    intro i v b hb hlen
    show (if v < s then jsArgmaxGo tl (i + 1) s i else jsArgmaxGo tl (i + 1) v b) < bound
    split
    · exact ih (i + 1) s i (by simp at hlen; omega) (by simp at hlen; omega)
    · exact ih (i + 1) v b hb (by simp at hlen; omega)

theorem jsArgmax_lt (l : List ℚ) (h : l ≠ []) : jsArgmax l < l.length := by
  match l, h with
  | s :: rest, _ =>
    show jsArgmaxGo rest 1 s 0 < rest.length + 1
    exact jsArgmaxGo_lt (rest.length + 1) rest 1 s 0 (by omega) (by omega)

theorem cons_getD_eraseIdx_perm :
    ∀ (l : List SearchResult) (i : Nat), i < l.length →
      List.Perm (l.getD i defaultSearchResult :: l.eraseIdx i) l := by
  intro l
  induction l with
  | nil => intro i hi; simp at hi
  | cons x xs ih =>
    intro i hi
    match i with
    | 0 => simp
    | j + 1 =>
      have hj : j < xs.length := by simp at hi; omega
      have h1 : (x :: xs).getD (j + 1) defaultSearchResult :: (x :: xs).eraseIdx (j + 1)
          = xs.getD j defaultSearchResult :: x :: xs.eraseIdx j := by
        simp [List.getD_cons_succ]
      rw [h1]
      exact (List.Perm.swap x (xs.getD j defaultSearchResult) (xs.eraseIdx j)).trans
        (List.Perm.cons x (ih j hj))

theorem applyMMRLoop_subperm :
    ∀ (fuel : Nat) (sel rem : List SearchResult),
      (applyMMRLoop fuel sel rem).Subperm (sel ++ rem) := by
  intro fuel
  induction fuel with
  | zero => intro sel rem; exact (List.sublist_append_left sel rem).subperm
  | succ fuel ih =>
    intro sel rem
    show (if rem = [] ∨ DEFAULT_TOP_K ≤ sel.length then sel else _).Subperm (sel ++ rem)
    split
    · exact (List.sublist_append_left sel rem).subperm
    · rename_i hguard
      have hrem : rem ≠ [] := fun h => hguard (Or.inl h)
      have hidx : jsArgmax (rem.map (mmrScore sel)) < rem.length := by
        have := jsArgmax_lt (rem.map (mmrScore sel)) (by simpa using hrem)
        simpa using this
      refine (ih _ _).trans ?_
      have hassoc : (sel ++ [rem.getD (jsArgmax (rem.map (mmrScore sel))) defaultSearchResult])
          ++ rem.eraseIdx (jsArgmax (rem.map (mmrScore sel)))
          = sel ++ (rem.getD (jsArgmax (rem.map (mmrScore sel))) defaultSearchResult ::
              rem.eraseIdx (jsArgmax (rem.map (mmrScore sel)))) := by
        simp [List.append_assoc]
      rw [hassoc]
      exact (List.Perm.append_left sel (cons_getD_eraseIdx_perm rem _ hidx)).subperm

theorem applyMMRLoop_append :
    ∀ (fuel : Nat) (sel rem : List SearchResult),
      ∃ t, applyMMRLoop fuel sel rem = sel ++ t := by
  intro fuel
  induction fuel with
  | zero => intro sel rem; exact ⟨[], by simp [applyMMRLoop]⟩
  | succ fuel ih =>
    intro sel rem
    simp only [applyMMRLoop]
    split
    · exact ⟨[], by simp⟩
    · obtain ⟨t, ht⟩ := ih (sel ++ [rem.getD (jsArgmax (rem.map (mmrScore sel)))
        defaultSearchResult]) (rem.eraseIdx (jsArgmax (rem.map (mmrScore sel))))
      refine ⟨rem.getD (jsArgmax (rem.map (mmrScore sel))) defaultSearchResult :: t, ?_⟩
      rw [ht, List.append_assoc]
      rfl

theorem applyMMRLoop_length :
    ∀ (fuel : Nat) (sel rem : List SearchResult), sel.length ≤ DEFAULT_TOP_K →
      (applyMMRLoop fuel sel rem).length ≤ DEFAULT_TOP_K := by
  intro fuel
  induction fuel with
  | zero => intro sel rem h; exact h
  | succ fuel ih =>
    intro sel rem h
    show (if rem = [] ∨ DEFAULT_TOP_K ≤ sel.length then sel else _).length ≤ DEFAULT_TOP_K
    split
    · exact h
    · rename_i hguard
      have : sel.length < DEFAULT_TOP_K := by
        rcases Nat.lt_or_ge sel.length DEFAULT_TOP_K with h' | h'
        · exact h'
        · exact absurd (Or.inr h') hguard
      exact ih _ _ (by simp; omega)

/-- C10: MMR diversification returns a sub-permutation of its input (every
output element is an input element, without duplication of occurrences), its
first element is the first input element, and it never selects more than
`DEFAULT_TOP_K = 8` results, however many candidates are supplied (the
caller-requested `topK` is not consulted — `applyMMR` takes no such
parameter). -/
theorem C10_applyMMR_invariants :
    ∀ results : List SearchResult,
      (applyMMR results).Subperm results
      ∧ (applyMMR results).head? = results.head?
      ∧ (applyMMR results).length ≤ DEFAULT_TOP_K := by
  intro results
  by_cases h : results.length ≤ 1
  · have happ : applyMMR results = results := by
      unfold applyMMR
      rw [if_pos h]
    refine ⟨?_, ?_, ?_⟩
    · rw [happ]
    · rw [happ]
    · rw [happ]
      show results.length ≤ 8
      omega
  · match results with
    | [] => simp at h
    | x :: rest =>
      have happ : applyMMR (x :: rest) = applyMMRLoop rest.length [x] rest := by
        unfold applyMMR
        rw [if_neg h]
      obtain ⟨t, ht⟩ := applyMMRLoop_append rest.length [x] rest
      refine ⟨?_, ?_, ?_⟩
      · rw [happ]
        simpa using applyMMRLoop_subperm rest.length [x] rest
      · rw [happ, ht]
        simp
      · rw [happ]
        exact applyMMRLoop_length rest.length [x] rest (by simp [DEFAULT_TOP_K])

/-! ## Context assembly lemmas and claim C1 -/

theorem buildContextRest_length_le (maxContextLength : Nat) :
    ∀ (rs : List SearchResult) (i total : Nat),
      (buildContextRest maxContextLength rs i total).length ≤ rs.length := by
  intro rs
  induction rs with
  | nil => intro i total; simp [buildContextRest]
  | cons r rest ih =>
    intro i total
    show (if maxContextLength < total + r.chunk_text.length + (citation i r).length
      then [] else _).length ≤ rest.length + 1
    split
    · simp
    · simpa using Nat.succ_le_succ (ih (i + 1) _)

theorem buildContextRest_sum_bound (maxContextLength : Nat) :
    ∀ (rs : List SearchResult) (i total : Nat), total ≤ maxContextLength →
      ((buildContextRest maxContextLength rs i total).map List.length).sum + total
        ≤ maxContextLength + (buildContextRest maxContextLength rs i total).length := by
  intro rs
  induction rs with
  | nil => intro i total h; simpa [buildContextRest] using h
  | cons r rest ih =>
    intro i total h
    show ((if maxContextLength < total + r.chunk_text.length + (citation i r).length
      then [] else _).map List.length).sum + total ≤
      maxContextLength + (if maxContextLength < total + r.chunk_text.length +
        (citation i r).length then [] else _).length
    split
    · simpa using h
    · rename_i hover
      have htot : total + r.chunk_text.length + (citation i r).length ≤ maxContextLength :=
        Nat.le_of_not_lt hover
      have := ih (i + 1) (total + r.chunk_text.length + (citation i r).length) htot
      simp only [List.map_cons, List.sum_cons, List.length_cons, List.length_append]
      omega

theorem buildContextRest_charges (maxContextLength : Nat) :
    ∀ (rs : List SearchResult) (i total : Nat),
      (∀ j, j < (buildContextRest maxContextLength rs i total).length →
        total + ((contextCharges i rs).take (j + 1)).sum ≤ maxContextLength)
      ∧ ((buildContextRest maxContextLength rs i total).length < rs.length →
        maxContextLength < total
          + ((contextCharges i rs).take
              ((buildContextRest maxContextLength rs i total).length + 1)).sum) := by
  intro rs
  induction rs with
  | nil =>
    intro i total
    constructor
    · intro j hj
      simp [buildContextRest] at hj
    · intro h
      simp [buildContextRest] at h
  | cons r rest ih =>
    intro i total
    have hunf : buildContextRest maxContextLength (r :: rest) i total
        = if maxContextLength < total + r.chunk_text.length + (citation i r).length
          then []
          else (citation i r ++ '\n' :: r.chunk_text) ::
            buildContextRest maxContextLength rest (i + 1)
              (total + r.chunk_text.length + (citation i r).length) := rfl
    have hch : contextCharges i (r :: rest)
        = (r.chunk_text.length + (citation i r).length) :: contextCharges (i + 1) rest := rfl
    rw [hunf, hch]
    by_cases hover : maxContextLength < total + r.chunk_text.length + (citation i r).length
    · rw [if_pos hover]
      constructor
      · intro j hj
        simp at hj
      · intro h
        simp only [List.length_nil, List.take_succ_cons, List.take_zero, List.sum_cons,
          List.sum_nil]
        omega
    · rw [if_neg hover]
      obtain ⟨iha, ihb⟩ := ih (i + 1) (total + r.chunk_text.length + (citation i r).length)
      constructor
      · intro j hj
        match j with
        | 0 =>
          simp only [List.take_succ_cons, List.take_zero, List.sum_cons, List.sum_nil]
          omega
        | j' + 1 =>
          have hj' : j' < (buildContextRest maxContextLength rest (i + 1)
              (total + r.chunk_text.length + (citation i r).length)).length := by
            simpa using hj
          have hstep := iha j' hj'
          simp only [List.take_succ_cons, List.sum_cons]
          omega
      · intro h
        have h' : (buildContextRest maxContextLength rest (i + 1)
            (total + r.chunk_text.length + (citation i r).length)).length < rest.length := by
          simpa using h
        have hstep := ihb h'
        simp only [List.length_cons, List.take_succ_cons, List.sum_cons]
        omega

theorem joinContextSep_length :
    ∀ (ps : List (List Char)) (p : List Char),
      (joinContextSep (p :: ps)).length
        = p.length + 7 * ps.length + (ps.map List.length).sum := by
  intro ps
  induction ps with
  | nil => intro p; simp [joinContextSep]
  | cons q qs ih =>
    intro p
    show (p ++ "\n\n---\n\n".toList ++ joinContextSep (q :: qs)).length = _
    simp only [List.length_append, ih q, List.map_cons, List.sum_cons, List.length_cons]
    have : ("\n\n---\n\n".toList).length = 7 := rfl
    omega

theorem joinContextSep_isPrefix (p : List Char) (ps : List (List Char)) :
    List.IsPrefix p (joinContextSep (p :: ps)) := by
  match ps with
  | [] => exact ⟨[], by simp [joinContextSep]⟩
  | q :: qs => exact ⟨"\n\n---\n\n".toList ++ joinContextSep (q :: qs), by simp [joinContextSep]⟩

/-- A 20-character chunk from file `f` (concrete input for the analysis of
`buildContext`). -/
def exC1a : SearchResult :=
  { id := 0, filename := "f".toList, chunk_text := List.replicate 20 'a',
    chunk_index := none, similarity := 1, rerank_score := none }

/-- A 3-character chunk from file `f`. -/
def exC1b : SearchResult :=
  { id := 1, filename := "f".toList, chunk_text := "bbb".toList,
    chunk_index := none, similarity := 1, rerank_score := none }

/-- C1 (amended): for every non-empty candidate list, the first candidate is
always included (its text truncated with the visible marker exactly when its
citation plus text would overflow the budget); writing `included` for the
number of included candidates, the sources are exactly the `included`-prefix
of the candidates; each later included candidate passed the source's guard
(first-part length plus the running charges stays within the budget), while
the first excluded candidate — whenever one exists — failed it, so the loop
stops at exactly the first overflowing candidate and everything after it is
excluded; and, provided the first citation, its newline and the truncation
marker fit the budget, the context length is bounded by
`maxContextLength + 8·(included − 1)` — not by `maxContextLength` itself: the
newline after each later citation and the 7-character `\n\n---\n\n` join
separators are not counted by the running total, so each candidate after the
first may add up to 8 uncounted characters (without that proviso even the
lone truncated first part exceeds the budget, as the counterexample also
shows). -/
theorem C1_buildContext_amended :
    ∀ (maxContextLength : Nat) (r : SearchResult) (rest : List SearchResult),
      1 ≤ (buildContext maxContextLength (r :: rest)).sources.length
      ∧ (buildContext maxContextLength (r :: rest)).sources
          = (r :: rest).take (buildContext maxContextLength (r :: rest)).sources.length
      ∧ (∀ j, j + 1 < (buildContext maxContextLength (r :: rest)).sources.length →
          (citation 0 r ++ '\n' ::
            (if maxContextLength < (citation 0 r ++ ['\n']).length + r.chunk_text.length then
              r.chunk_text.take (maxContextLength - (citation 0 r ++ ['\n']).length
                - truncationMessage.length) ++ truncationMessage
             else r.chunk_text)).length
            + ((contextCharges 1 rest).take (j + 1)).sum ≤ maxContextLength)
      ∧ ((buildContext maxContextLength (r :: rest)).sources.length ≤ rest.length →
          maxContextLength
            < (citation 0 r ++ '\n' ::
                (if maxContextLength < (citation 0 r ++ ['\n']).length + r.chunk_text.length then
                  r.chunk_text.take (maxContextLength - (citation 0 r ++ ['\n']).length
                    - truncationMessage.length) ++ truncationMessage
                 else r.chunk_text)).length
              + ((contextCharges 1 rest).take
                  (buildContext maxContextLength (r :: rest)).sources.length).sum)
      ∧ ((citation 0 r ++ ['\n']).length + truncationMessage.length ≤ maxContextLength →
          (buildContext maxContextLength (r :: rest)).context.length
            ≤ maxContextLength
              + 8 * ((buildContext maxContextLength (r :: rest)).sources.length - 1))
      ∧ List.IsPrefix
          (citation 0 r ++ '\n' ::
            (if maxContextLength < (citation 0 r ++ ['\n']).length + r.chunk_text.length then
              r.chunk_text.take (maxContextLength - (citation 0 r ++ ['\n']).length
                - truncationMessage.length) ++ truncationMessage
             else r.chunk_text))
          (buildContext maxContextLength (r :: rest)).context := by
  intro maxLen r rest
  set cit := citation 0 r with hc
  set citationLength := (cit ++ ['\n']).length with hcl
  set chunkText := (if maxLen < citationLength + r.chunk_text.length then
      r.chunk_text.take (maxLen - citationLength - truncationMessage.length)
        ++ truncationMessage
    else r.chunk_text) with hct
  set total0 := citationLength + chunkText.length with ht0
  set parts' := buildContextRest maxLen rest 1 total0 with hp
  have hb : buildContext maxLen (r :: rest)
      = { context := joinContextSep ((cit ++ '\n' :: chunkText) :: parts'),
          sources := (r :: rest).take ((cit ++ '\n' :: chunkText) :: parts').length } := rfl
  have hcl1 : citationLength = cit.length + 1 := by simp [hcl]
  have hple : parts'.length ≤ rest.length := by
    rw [hp]
    exact buildContextRest_length_le maxLen rest 1 total0
  have hlensrc : ((r :: rest).take (parts'.length + 1)).length = parts'.length + 1 := by
    rw [List.length_take]
    simp only [List.length_cons]
    omega
  have hpart0 : (cit ++ '\n' :: chunkText).length = total0 := by
    simp only [List.length_append, List.length_cons, ht0, hcl1]
    omega
  have hn : (buildContext maxLen (r :: rest)).sources.length = parts'.length + 1 := by
    rw [hb]
    simp only [List.length_cons]
    rw [hlensrc]
  obtain ⟨hch_a, hch_b⟩ := buildContextRest_charges maxLen rest 1 total0
  rw [← hp] at hch_a hch_b
  refine ⟨?_, ?_, ?_, ?_, ?_, ?_⟩
  · rw [hn]
    omega
  · rw [hn, hb]
    simp only [List.length_cons]
  · intro j hj
    rw [hn] at hj
    rw [hpart0]
    exact hch_a j (by omega)
  · intro h
    rw [hn] at h
    rw [hpart0, hn]
    exact hch_b (by omega)
  · intro hcit
    have htotle : total0 ≤ maxLen := by
      rw [ht0, hct]
      split
      · rename_i hover
        have : (r.chunk_text.take (maxLen - citationLength - truncationMessage.length)).length
            ≤ maxLen - citationLength - truncationMessage.length := by
          simp [List.length_take]
        simp only [List.length_append]
        omega
      · rename_i hover
        omega
    rw [hb]
    simp only [List.length_cons]
    rw [hlensrc, joinContextSep_length parts' (cit ++ '\n' :: chunkText), hpart0]
    have hsum := buildContextRest_sum_bound maxLen rest 1 total0 htotle
    rw [← hp] at hsum
    omega
  · rw [hb]
    exact joinContextSep_isPrefix (cit ++ '\n' :: chunkText) parts'

/-- Counterexample to C1 as stated, in two parts. First, with budget 50 and
two candidates from file `f` (first text 20 characters, second 3), the
running total accepts both (`14 + 20 + 3 + 13 = 50 ≤ 50`) but the real
context — `[Source 1: f]\n` + text + `\n\n---\n\n` + `[Source 2: f]\n` +
text — is 58 characters, exceeding `maxContextLength`. Second, with budget 20
and the first candidate alone, whose citation-plus-newline (14 characters)
and truncation marker (32 characters) together already exceed the budget,
even the amended bound `maxContextLength + 8·(included − 1)` fails: the lone
truncated part `[Source 1: f]\n` + marker is 46 characters against a bound of
20, which is what forces the first-citation-fits proviso on the amended
length bound. -/
theorem C1_buildContext_counterexample :
    ¬ ((buildContext 50 [exC1a, exC1b]).context.length ≤ 50)
    ∧ ¬ ((buildContext 20 [exC1a]).context.length
          ≤ 20 + 8 * ((buildContext 20 [exC1a]).sources.length - 1)) := by
  constructor <;> decide

/-- Witness for C1 at a concrete input: budget 60, first candidate `exC1a`
(14-character citation line, 20-character text, not truncated), later
candidates two copies of `exC1b` (charge 16 each). The loop includes the
first later candidate (34 + 16 ≤ 60) and stops at the second
(34 + 16 + 16 > 60), so two sources are included; the inclusion guard, the
exclusion guard and the amended length bound are instantiated with their
hypotheses discharged. -/
theorem C1_buildContext_amended_witness :
    1 ≤ (buildContext 60 [exC1a, exC1b, exC1b]).sources.length
    ∧ ((citation 0 exC1a ++ '\n' ::
          (if 60 < (citation 0 exC1a ++ ['\n']).length + exC1a.chunk_text.length then
            exC1a.chunk_text.take (60 - (citation 0 exC1a ++ ['\n']).length
              - truncationMessage.length) ++ truncationMessage
           else exC1a.chunk_text)).length
        + ((contextCharges 1 [exC1b, exC1b]).take (0 + 1)).sum ≤ 60)
    ∧ (60 < (citation 0 exC1a ++ '\n' ::
          (if 60 < (citation 0 exC1a ++ ['\n']).length + exC1a.chunk_text.length then
            exC1a.chunk_text.take (60 - (citation 0 exC1a ++ ['\n']).length
              - truncationMessage.length) ++ truncationMessage
           else exC1a.chunk_text)).length
        + ((contextCharges 1 [exC1b, exC1b]).take
            (buildContext 60 [exC1a, exC1b, exC1b]).sources.length).sum)
    ∧ (buildContext 60 [exC1a, exC1b, exC1b]).context.length
        ≤ 60 + 8 * ((buildContext 60 [exC1a, exC1b, exC1b]).sources.length - 1) := by
  refine ⟨?_, ?_, ?_, ?_⟩
  · exact (C1_buildContext_amended 60 exC1a [exC1b, exC1b]).1
  · exact (C1_buildContext_amended 60 exC1a [exC1b, exC1b]).2.2.1 0 (by decide)
  · exact (C1_buildContext_amended 60 exC1a [exC1b, exC1b]).2.2.2.1 (by decide)
  · exact (C1_buildContext_amended 60 exC1a [exC1b, exC1b]).2.2.2.2.1 (by decide)

/-! ## Deduplication lemmas and claim C8 -/

theorem dedupSlot_of_no_dup (threshold : ℚ) (current : SearchResult) :
    ∀ (l : List SearchResult) (slot : SearchResult),
      (∀ y ∈ l, isDuplicatePair threshold current y = false) →
      dedupSlot threshold current l slot = slot := by
  intro l
  induction l with
  | nil => intro slot _; rfl
  | cons y tl ih =>
    intro slot h
    show (if isDuplicatePair threshold current y then _ else
      dedupSlot threshold current tl slot) = slot
    rw [if_neg (by simp [h y (by simp)])]
    exact ih slot (fun z hz => h z (by simp [hz]))

theorem deduplicateResultsAux_of_pairwise (threshold : ℚ) :
    ∀ (fuel : Nat) (rs : List SearchResult), rs.length ≤ fuel →
      List.Pairwise (fun x y => isDuplicatePair threshold x y = false) rs →
      deduplicateResultsAux threshold fuel rs = rs := by
  intro fuel
  induction fuel with
  | zero =>
    intro rs hlen _
    have : rs = [] := List.eq_nil_of_length_eq_zero (Nat.le_zero.1 hlen)
    subst this
    rfl
  | succ fuel ih =>
    intro rs hlen hpw
    match rs with
    | [] => rfl
    | current :: rest =>
      have hhead : ∀ y ∈ rest, isDuplicatePair threshold current y = false :=
        (List.pairwise_cons.1 hpw).1
      have hrest : List.Pairwise (fun x y => isDuplicatePair threshold x y = false) rest :=
        (List.pairwise_cons.1 hpw).2
      show dedupSlot threshold current rest current ::
        deduplicateResultsAux threshold fuel
          (rest.filter (fun cand => !isDuplicatePair threshold current cand))
        = current :: rest
      rw [dedupSlot_of_no_dup threshold current rest current hhead,
        List.filter_eq_self.2 (fun a ha => by simp [hhead a ha]),
        ih rest (by simp at hlen; omega) hrest]

/-- Three same-file same-text candidates at positions 4 (score 1), 5 (score
3) and 3 (score 2): concrete inputs for the deduplication analysis. -/
def exC8a : SearchResult :=
  { id := 0, filename := "f".toList, chunk_text := "alpha beta gamma".toList,
    chunk_index := some 4, similarity := 1, rerank_score := none }

def exC8b : SearchResult :=
  { id := 1, filename := "f".toList, chunk_text := "alpha beta gamma".toList,
    chunk_index := some 5, similarity := 3, rerank_score := none }

def exC8c : SearchResult :=
  { id := 2, filename := "f".toList, chunk_text := "alpha beta gamma".toList,
    chunk_index := some 3, similarity := 2, rerank_score := none }

/-- A candidate from a different file (never flagged against the others). -/
def exC8d : SearchResult :=
  { id := 3, filename := "g".toList, chunk_text := "alpha beta gamma".toList,
    chunk_index := some 4, similarity := 1, rerank_score := none }

/-- C8 (amended): two candidates are flagged as duplicates only if they come
from the same source at structural positions differing by at most 1 with
token-Jaccard similarity at least the threshold — a list with no such pair
passes through unchanged; and when the anchor has a single flagged partner
the strictly higher-scoring of the two is kept.  (With several partners the
kept candidate is the last one scoring above the anchor, which need not be
the pairwise higher-scoring one — see the counterexample.) -/
theorem C8_dedup_flagging :
    ∀ (threshold : ℚ) (results : List SearchResult) (a b : SearchResult),
      (List.Pairwise (fun x y => isDuplicatePair threshold x y = false) results →
        deduplicateResults threshold results = results)
      ∧ (isDuplicatePair threshold a b = true →
          deduplicateResults threshold [a, b]
            = [if a.similarity < b.similarity then b else a]) := by
  intro threshold results a b
  constructor
  · intro hpw
    exact deduplicateResultsAux_of_pairwise threshold results.length results le_rfl hpw
  · intro hdup
    show deduplicateResultsAux threshold 2 [a, b] = _
    show dedupSlot threshold a [b] a ::
      deduplicateResultsAux threshold 1
        ([b].filter (fun cand => !isDuplicatePair threshold a cand)) = _
    rw [show [b].filter (fun cand => !isDuplicatePair threshold a cand) = [] by
      simp [hdup]]
    show dedupSlot threshold a [b] a :: [] = _
    rw [show dedupSlot threshold a [b] a
        = (if a.similarity < b.similarity then b else a) by
      show (if isDuplicatePair threshold a b then
        dedupSlot threshold a [] (if a.similarity < b.similarity then b else a)
        else dedupSlot threshold a [] a) = _
      rw [if_pos hdup]
      rfl]

/-- Counterexample to C8 as stated: the pair `(exC8a, exC8b)` is flagged and
`exC8b` scores higher, yet `exC8b` is not kept — the later flagged partner
`exC8c` overwrites the slot because the source keeps comparing against the
original anchor, so the output is `[exC8c]`. -/
theorem C8_dedup_counterexample :
    isDuplicatePair DEDUPLICATION_THRESHOLD exC8a exC8b = true
    ∧ exC8a.similarity < exC8b.similarity
    ∧ deduplicateResults DEDUPLICATION_THRESHOLD [exC8a, exC8b, exC8c] = [exC8c]
    ∧ exC8b ∉ deduplicateResults DEDUPLICATION_THRESHOLD [exC8a, exC8b, exC8c] := by
  with_unfolding_all decide

/-- Witness for C8 at concrete inputs: an unflagged pair passes through
unchanged, and a single flagged pair keeps the higher-scoring candidate. -/
theorem C8_dedup_flagging_witness :
    deduplicateResults DEDUPLICATION_THRESHOLD [exC8a, exC8d] = [exC8a, exC8d]
    ∧ deduplicateResults DEDUPLICATION_THRESHOLD [exC8a, exC8b]
        = [if exC8a.similarity < exC8b.similarity then exC8b else exC8a] := by
  constructor
  · exact (C8_dedup_flagging DEDUPLICATION_THRESHOLD [exC8a, exC8d] exC8a exC8b).1
      (by decide)
  · exact (C8_dedup_flagging DEDUPLICATION_THRESHOLD [exC8a, exC8d] exC8a exC8b).2
      (by with_unfolding_all decide)

/-! ## Chunking lemmas and claim C9 -/

theorem min_of_mem_filter_chunks {l : List (List Char)} {c : List Char}
    (h : c ∈ l.filter (fun c => MIN_CHUNK_SIZE ≤ c.length)) :
    MIN_CHUNK_SIZE ≤ c.length := by
  have hmem := (List.mem_filter.1 h).2
  exact of_decide_eq_true hmem

theorem min_of_mem_detect {text : List Char} {u : SemanticUnit}
    (h : u ∈ detectSemanticUnits text) : MIN_CHUNK_SIZE ≤ u.content.length := by
  unfold detectSemanticUnits at h
  have hmem := (List.mem_filter.1 h).2
  exact of_decide_eq_true hmem

theorem min_of_mem_semanticChunkingMain {units : List SemanticUnit} {c : List Char}
    (h : c ∈ semanticChunkingMain units) : MIN_CHUNK_SIZE ≤ c.length :=
  min_of_mem_filter_chunks h

/-- C9 (amended): every chunk returned by the fixed-size word packer has
length at least `MIN_CHUNK_SIZE`, and so does every chunk returned by
structure-aware semantic chunking whenever at least one semantic unit
survives detection.  When no unit of at least `MIN_CHUNK_SIZE` characters is
detected, `semanticChunking` falls back to returning the whole input as a
single chunk, which may be shorter than `MIN_CHUNK_SIZE` — see the
counterexample. -/
theorem C9_chunk_min_length :
    ∀ text : List Char,
      (∀ c ∈ chunkText text, MIN_CHUNK_SIZE ≤ c.length)
      ∧ (detectSemanticUnits text ≠ [] →
          ∀ c ∈ semanticChunking text, MIN_CHUNK_SIZE ≤ c.length) := by
  intro text
  refine ⟨fun c hc => min_of_mem_filter_chunks hc, ?_⟩
  intro hne c hc
  unfold semanticChunking at hc
  split at hc
  · simp at hc
  · split at hc
    · rename_i heq
      exact absurd heq hne
    · rename_i u heq
      split at hc
      · have hcu : c = u.content := by simpa using hc
        have hu : u ∈ detectSemanticUnits text := by rw [heq]; simp
        rw [hcu]
        exact min_of_mem_detect hu
      · exact min_of_mem_semanticChunkingMain hc
    · exact min_of_mem_semanticChunkingMain hc

/-- Counterexample to C9 as stated: on the 5-character input `hello`, no
semantic unit of at least `MIN_CHUNK_SIZE = 50` characters is detected and
`semanticChunking` emits the whole input as a single 5-character chunk. -/
theorem C9_chunk_min_length_counterexample :
    semanticChunking "hello".toList = ["hello".toList]
    ∧ ¬ (MIN_CHUNK_SIZE ≤ ("hello".toList).length) := by
  decide

/-- Witness for C9 on a 60-character one-unit input, for which both
strategies emit exactly that chunk. -/
theorem C9_chunk_min_length_witness :
    MIN_CHUNK_SIZE ≤ (List.replicate 60 'a').length
    ∧ detectSemanticUnits (List.replicate 60 'a') ≠ [] := by
  refine ⟨?_, by decide⟩
  exact (C9_chunk_min_length (List.replicate 60 'a')).1 (List.replicate 60 'a') (by decide)

/-! ## Reciprocal rank fusion lemmas and claim C7 -/

theorem rrfKeys_map_update (s : ℚ) (rid : Nat) (m : List RRFEntry) :
    rrfKeys (m.map (fun e =>
      if e.result.id = rid then { e with score := e.score + s } else e)) = rrfKeys m := by
  simp only [rrfKeys, List.map_map]
  refine List.map_congr_left ?_
  intro e _
  by_cases h : e.result.id = rid <;> simp [h]

theorem rrfAny_iff (m : List RRFEntry) (x : Nat) :
    (m.any (fun e => e.result.id == x) = true) ↔ x ∈ rrfKeys m := by
  rw [List.any_eq_true]
  simp [rrfKeys, List.mem_map, beq_iff_eq]

theorem rrfUpd_result (s : ℚ) (rid : Nat) (e : RRFEntry) :
    ((if e.result.id = rid then { e with score := e.score + s } else e) :
      RRFEntry).result = e.result := by
  by_cases h : e.result.id = rid <;> simp [h]

theorem lookup_map_update_ne (s : ℚ) (rid : Nat) :
    ∀ (m : List RRFEntry) (id : Nat), id ≠ rid →
      rrfLookup (m.map (fun e =>
        if e.result.id = rid then { e with score := e.score + s } else e)) id
        = rrfLookup m id := by
  intro m
  induction m with
  | nil => intro id _; rfl
  | cons e tl ih =>
    intro id hne
    by_cases he : e.result.id = id
    · have h1 : rrfLookup ((e :: tl).map (fun e =>
          if e.result.id = rid then { e with score := e.score + s } else e)) id
          = ((if e.result.id = rid then { e with score := e.score + s } else e) :
              RRFEntry).score := by
        rw [rrfLookup, List.map_cons, List.find?_cons_of_pos _
          (by rw [rrfUpd_result s rid e]; simp [he])]
      have h2 : rrfLookup (e :: tl) id = e.score := by
        rw [rrfLookup, List.find?_cons_of_pos _ (by simp [he])]
      rw [h1, h2]
      have hnr : ¬ e.result.id = rid := fun h => hne (he ▸ h)
      rw [if_neg hnr]
    · have h1 : rrfLookup ((e :: tl).map (fun e =>
          if e.result.id = rid then { e with score := e.score + s } else e)) id
          = rrfLookup (tl.map (fun e =>
              if e.result.id = rid then { e with score := e.score + s } else e)) id := by
        rw [rrfLookup, List.map_cons, List.find?_cons_of_neg _
          (by rw [rrfUpd_result s rid e]; simp [he])]
        rfl
      have h2 : rrfLookup (e :: tl) id = rrfLookup tl id := by
        rw [rrfLookup, List.find?_cons_of_neg _ (by simp [he])]
        rfl
      rw [h1, h2, ih id hne]

theorem lookup_map_update_self (s : ℚ) (rid : Nat) :
    ∀ (m : List RRFEntry),
      rrfLookup (m.map (fun e =>
        if e.result.id = rid then { e with score := e.score + s } else e)) rid
        = rrfLookup m rid + (if rid ∈ rrfKeys m then s else 0) := by
  intro m
  induction m with
  | nil => simp [rrfLookup, rrfKeys]
  | cons e tl ih =>
    by_cases he : e.result.id = rid
    · have h1 : rrfLookup ((e :: tl).map (fun e =>
          if e.result.id = rid then { e with score := e.score + s } else e)) rid
          = e.score + s := by
        rw [rrfLookup, List.map_cons, List.find?_cons_of_pos _
          (by rw [rrfUpd_result s rid e]; simp [he])]
        rw [if_pos he]
      have h2 : rrfLookup (e :: tl) rid = e.score := by
        rw [rrfLookup, List.find?_cons_of_pos _ (by simp [he])]
      rw [h1, h2, if_pos (by simp [rrfKeys, he])]
    · have h1 : rrfLookup ((e :: tl).map (fun e =>
          if e.result.id = rid then { e with score := e.score + s } else e)) rid
          = rrfLookup (tl.map (fun e =>
              if e.result.id = rid then { e with score := e.score + s } else e)) rid := by
        rw [rrfLookup, List.map_cons, List.find?_cons_of_neg _
          (by rw [rrfUpd_result s rid e]; simp [he])]
        rfl
      have h2 : rrfLookup (e :: tl) rid = rrfLookup tl rid := by
        rw [rrfLookup, List.find?_cons_of_neg _ (by simp [he])]
        rfl
      have hmem : (rid ∈ rrfKeys (e :: tl)) ↔ (rid ∈ rrfKeys tl) := by
        simp only [rrfKeys, List.map_cons, List.mem_cons]
        constructor
        · rintro (h | h)
          · exact absurd h.symm he
          · exact h
        · exact fun h => Or.inr h
      rw [h1, h2, ih]
      by_cases hk : rid ∈ rrfKeys tl
      · rw [if_pos hk, if_pos (hmem.2 hk)]
      · rw [if_neg hk, if_neg (fun h => hk (hmem.1 h))]

theorem find?_append_of_none {p : RRFEntry → Bool} {l₁ : List RRFEntry}
    (l₂ : List RRFEntry) (h : l₁.find? p = none) :
    (l₁ ++ l₂).find? p = l₂.find? p := by
  induction l₁ with
  | nil => rfl
  | cons e tl ih =>
    have he : ¬ p e = true := by
      intro hp
      rw [List.find?_cons_of_pos _ hp] at h
      exact Option.noConfusion h
    rw [List.find?_cons_of_neg _ he] at h
    rw [List.cons_append, List.find?_cons_of_neg _ he]
    exact ih h

theorem find?_append_of_some {p : RRFEntry → Bool} {l₁ : List RRFEntry}
    (l₂ : List RRFEntry) {e : RRFEntry} (h : l₁.find? p = some e) :
    (l₁ ++ l₂).find? p = some e := by
  induction l₁ with
  | nil => exact Option.noConfusion h
  | cons x tl ih =>
    by_cases hx : p x = true
    · rw [List.find?_cons_of_pos _ hx] at h
      rw [List.cons_append, List.find?_cons_of_pos _ hx]
      exact h
    · rw [List.find?_cons_of_neg _ hx] at h
      rw [List.cons_append, List.find?_cons_of_neg _ hx]
      exact ih h

theorem rrfAdd_lookup (k : ℚ) (m : List RRFEntry) (r : SearchResult) (rank : Nat)
    (id : Nat) :
    rrfLookup (rrfAdd k m r rank) id
      = rrfLookup m id + (if id = r.id then 1 / (k + (rank : ℚ) + 1) else 0) := by
  unfold rrfAdd
  by_cases hany : m.any (fun e => e.result.id == r.id) = true
  · rw [if_pos hany]
    by_cases hid : id = r.id
    · rw [hid, lookup_map_update_self, if_pos ((rrfAny_iff m r.id).1 hany), if_pos rfl]
    · rw [lookup_map_update_ne _ _ _ _ hid, if_neg hid, add_zero]
  · rw [if_neg hany]
    have hnot : r.id ∉ rrfKeys m := fun h => hany ((rrfAny_iff m r.id).2 h)
    by_cases hid : id = r.id
    · have hfind : m.find? (fun e => e.result.id == id) = none := by
        rw [List.find?_eq_none]
        intro e he hbe
        rw [beq_iff_eq, hid] at hbe
        exact hnot (hbe ▸ List.mem_map_of_mem (fun e => e.result.id) he)
      have h1 : rrfLookup (m ++ [rrfNewEntry r (1 / (k + (rank : ℚ) + 1))]) id
          = 1 / (k + (rank : ℚ) + 1) := by
        rw [rrfLookup, find?_append_of_none _ hfind,
          List.find?_cons_of_pos _ (by simp [rrfNewEntry, hid])]
        rfl
      rw [h1, rrfLookup, hfind, if_pos hid, zero_add]
    · cases hf : m.find? (fun e => e.result.id == id) with
      | some e =>
        have h1 : rrfLookup (m ++ [rrfNewEntry r (1 / (k + (rank : ℚ) + 1))]) id
            = e.score := by
          rw [rrfLookup, find?_append_of_some _ hf]
        rw [h1, rrfLookup, hf, if_neg hid, add_zero]
      | none =>
        have h1 : rrfLookup (m ++ [rrfNewEntry r (1 / (k + (rank : ℚ) + 1))]) id
            = 0 := by
          rw [rrfLookup, find?_append_of_none _ hf,
            List.find?_cons_of_neg _ (by
              simp only [rrfNewEntry, beq_iff_eq]
              exact fun h => hid h.symm),
            List.find?_nil]
        rw [h1, rrfLookup, hf, if_neg hid, add_zero]

theorem rrfAdd_keys (k : ℚ) (m : List RRFEntry) (r : SearchResult) (rank : Nat) :
    rrfKeys (rrfAdd k m r rank)
      = if r.id ∈ rrfKeys m then rrfKeys m else rrfKeys m ++ [r.id] := by
  unfold rrfAdd
  by_cases hany : m.any (fun e => e.result.id == r.id) = true
  · rw [if_pos hany, rrfKeys_map_update, if_pos ((rrfAny_iff m r.id).1 hany)]
  · rw [if_neg hany, if_neg (fun h => hany ((rrfAny_iff m r.id).2 h))]
    simp [rrfKeys, rrfNewEntry]

theorem rrfAdd_keys_nodup (k : ℚ) (m : List RRFEntry) (r : SearchResult) (rank : Nat)
    (hnd : (rrfKeys m).Nodup) : (rrfKeys (rrfAdd k m r rank)).Nodup := by
  rw [rrfAdd_keys]
  split
  · exact hnd
  · rename_i hnot
    exact List.nodup_append.2 ⟨hnd, List.nodup_singleton _,
      fun a ha hb => hnot (by simpa using (by simpa using hb : a = r.id) ▸ ha)⟩

theorem rrfAdd_keys_mem (k : ℚ) (m : List RRFEntry) (r : SearchResult) (rank : Nat)
    (id : Nat) (h : id ∈ rrfKeys m) : id ∈ rrfKeys (rrfAdd k m r rank) := by
  rw [rrfAdd_keys]
  split <;> simp [h]

theorem rrfAdd_keys_mem_self (k : ℚ) (m : List RRFEntry) (r : SearchResult)
    (rank : Nat) : r.id ∈ rrfKeys (rrfAdd k m r rank) := by
  rw [rrfAdd_keys]
  split
  · assumption
  · simp

theorem idxOfId_eq_none {id : Nat} :
    ∀ {l : List SearchResult}, (∀ x ∈ l, x.id ≠ id) → idxOfId id l = none := by
  intro l
  induction l with
  | nil => intro _; rfl
  | cons r tl ih =>
    intro h
    rw [idxOfId, if_neg (h r (by simp)), ih (fun x hx => h x (by simp [hx]))]
    rfl

theorem enumFold_lookup (k : ℚ) :
    ∀ (l : List SearchResult) (n : Nat) (m : List RRFEntry) (id : Nat),
      (l.map (fun r => r.id)).Nodup →
      rrfLookup ((List.enumFrom n l).foldl (fun acc p => rrfAdd k acc p.2 p.1) m) id
        = rrfLookup m id +
          (match idxOfId id l with
           | some j => 1 / (k + ((n + j : Nat) : ℚ) + 1)
           | none => 0) := by
  intro l
  induction l with
  | nil => intro n m id _; simp [idxOfId]
  | cons r tl ih =>
    intro n m id hnd
    have hnd' : (∀ x ∈ tl, ¬ x.id = r.id) ∧ (tl.map (fun r => r.id)).Nodup := by
      simpa using hnd
    rw [List.enumFrom_cons, List.foldl_cons,
      ih (n + 1) (rrfAdd k m r n) id hnd'.2, rrfAdd_lookup]
    by_cases hid : id = r.id
    · have hr_not_tl : ∀ x ∈ tl, x.id ≠ id := fun x hx hxe =>
        hnd'.1 x hx (hxe.trans hid)
      have hnone : idxOfId id tl = none := idxOfId_eq_none hr_not_tl
      rw [hnone, idxOfId, if_pos hid.symm]
      simp [hid]
    · have hcons : idxOfId id (r :: tl) = (idxOfId id tl).map (· + 1) := by
        rw [idxOfId, if_neg (fun h => hid h.symm)]
      rw [hcons, if_neg hid, add_zero]
      cases hj : idxOfId id tl with
      | none => simp
      | some j =>
        simp only [Option.map_some]
        congr 2
        push_cast
        ring

theorem enumFold_keys_nodup (k : ℚ) :
    ∀ (l : List SearchResult) (n : Nat) (m : List RRFEntry), (rrfKeys m).Nodup →
      (rrfKeys ((List.enumFrom n l).foldl (fun acc p => rrfAdd k acc p.2 p.1) m)).Nodup := by
  intro l
  induction l with
  | nil => intro n m h; exact h
  | cons r tl ih =>
    intro n m h
    rw [List.enumFrom_cons, List.foldl_cons]
    exact ih (n + 1) _ (rrfAdd_keys_nodup k m r n h)

theorem enumFold_keys_mem (k : ℚ) :
    ∀ (l : List SearchResult) (n : Nat) (m : List RRFEntry) (id : Nat),
      id ∈ rrfKeys m →
      id ∈ rrfKeys ((List.enumFrom n l).foldl (fun acc p => rrfAdd k acc p.2 p.1) m) := by
  intro l
  induction l with
  | nil => intro n m id h; exact h
  | cons r tl ih =>
    intro n m id h
    rw [List.enumFrom_cons, List.foldl_cons]
    exact ih (n + 1) _ id (rrfAdd_keys_mem k m r n id h)

theorem enumFold_keys_mem_of_mem (k : ℚ) :
    ∀ (l : List SearchResult) (n : Nat) (m : List RRFEntry) (r : SearchResult),
      r ∈ l →
      r.id ∈ rrfKeys ((List.enumFrom n l).foldl (fun acc p => rrfAdd k acc p.2 p.1) m) := by
  intro l
  induction l with
  | nil => intro n m r h; simp at h
  | cons x tl ih =>
    intro n m r h
    rw [List.enumFrom_cons, List.foldl_cons]
    rcases List.mem_cons.1 h with h | h
    · subst h
      exact enumFold_keys_mem k tl (n + 1) _ r.id (rrfAdd_keys_mem_self k m r n)
    · exact ih (n + 1) _ r h

theorem setsFold_lookup (k : ℚ) :
    ∀ (sets : List (List SearchResult)) (m : List RRFEntry) (id : Nat),
      (∀ l ∈ sets, (l.map (fun r => r.id)).Nodup) →
      rrfLookup (sets.foldl (rrfList k) m) id
        = rrfLookup m id + rrfClaimScore k sets id := by
  intro sets
  induction sets with
  | nil => intro m id _; simp [rrfClaimScore]
  | cons l ls ih =>
    intro m id hnd
    rw [List.foldl_cons, ih (rrfList k m l) id (fun l' hl' => hnd l' (by simp [hl']))]
    show rrfLookup ((List.enumFrom 0 l).foldl (fun acc p => rrfAdd k acc p.2 p.1) m) id
      + rrfClaimScore k ls id = _
    rw [enumFold_lookup k l 0 m id (hnd l (by simp))]
    have hterm : (match idxOfId id l with
        | some j => 1 / (k + ((0 + j : Nat) : ℚ) + 1)
        | none => 0)
        = (match idxOfId id l with
          | some rank => 1 / (k + (rank : ℚ) + 1)
          | none => (0 : ℚ)) := by
      cases idxOfId id l <;> simp
    rw [hterm]
    simp only [rrfClaimScore, List.map_cons, List.sum_cons]
    ring

theorem setsFold_keys_nodup (k : ℚ) :
    ∀ (sets : List (List SearchResult)) (m : List RRFEntry), (rrfKeys m).Nodup →
      (rrfKeys (sets.foldl (rrfList k) m)).Nodup := by
  intro sets
  induction sets with
  | nil => intro m h; exact h
  | cons l ls ih =>
    intro m h
    exact ih (rrfList k m l) (enumFold_keys_nodup k l 0 m h)

theorem setsFold_keys_mem (k : ℚ) :
    ∀ (sets : List (List SearchResult)) (m : List RRFEntry) (id : Nat),
      id ∈ rrfKeys m → id ∈ rrfKeys (sets.foldl (rrfList k) m) := by
  intro sets
  induction sets with
  | nil => intro m id h; exact h
  | cons l ls ih =>
    intro m id h
    exact ih (rrfList k m l) id (enumFold_keys_mem k l 0 m id h)

theorem setsFold_keys_mem_of_mem (k : ℚ) :
    ∀ (sets : List (List SearchResult)) (m : List RRFEntry)
      (l : List SearchResult) (r : SearchResult), l ∈ sets → r ∈ l →
      r.id ∈ rrfKeys (sets.foldl (rrfList k) m) := by
  intro sets
  induction sets with
  | nil => intro m l r h; simp at h
  | cons s ss ih =>
    intro m l r hl hr
    rcases List.mem_cons.1 hl with h | h
    · subst h
      exact setsFold_keys_mem k ss (rrfList k m l) r.id
        (enumFold_keys_mem_of_mem k l 0 m r hr)
    · exact ih (rrfList k m s) l r h hr

theorem lookup_of_mem_nodup :
    ∀ (m : List RRFEntry), (rrfKeys m).Nodup → ∀ e ∈ m,
      rrfLookup m e.result.id = e.score := by
  intro m
  induction m with
  | nil => intro _ e he; simp at he
  | cons x tl ih =>
    intro hnd e he
    have hnd' : (∀ y ∈ tl, ¬ y.result.id = x.result.id)
        ∧ (tl.map (fun e => e.result.id)).Nodup := by
      simpa [rrfKeys] using hnd
    rcases List.mem_cons.1 he with h | h
    · subst h
      rw [rrfLookup, List.find?_cons_of_pos _ (by simp)]
    · have hx : x.result.id ≠ e.result.id := fun hxe => hnd'.1 e h hxe.symm
      have h1 : rrfLookup (x :: tl) e.result.id = rrfLookup tl e.result.id := by
        rw [rrfLookup, List.find?_cons_of_neg _ (by simp [hx])]
        rfl
      rw [h1]
      exact ih (by simpa [rrfKeys] using hnd'.2) e h

theorem rrfInsertSorted_perm (x : RRFEntry) :
    ∀ l : List RRFEntry, List.Perm (rrfInsertSorted x l) (x :: l) := by
  intro l
  induction l with
  | nil => exact List.Perm.refl _
  | cons y ys ih =>
    show List.Perm (if y.score < x.score then x :: y :: ys
      else y :: rrfInsertSorted x ys) (x :: y :: ys)
    split
    · exact List.Perm.refl _
    · exact (List.Perm.cons y ih).trans (List.Perm.swap x y ys)

theorem rrfSortDesc_perm :
    ∀ m : List RRFEntry, List.Perm (rrfSortDesc m) m := by
  intro m
  induction m with
  | nil => exact List.Perm.refl _
  | cons x xs ih =>
    exact (rrfInsertSorted_perm x (rrfSortDesc xs)).trans (List.Perm.cons x ih)

theorem mem_rrfInsertSorted {a x : RRFEntry} {l : List RRFEntry} :
    a ∈ rrfInsertSorted x l ↔ a = x ∨ a ∈ l := by
  rw [(rrfInsertSorted_perm x l).mem_iff, List.mem_cons]

theorem rrfInsertSorted_pairwise (x : RRFEntry) :
    ∀ l : List RRFEntry,
      List.Pairwise (fun a b => b.score ≤ a.score) l →
      List.Pairwise (fun a b => b.score ≤ a.score) (rrfInsertSorted x l) := by
  intro l
  induction l with
  | nil => intro _; simp [rrfInsertSorted]
  | cons y ys ih =>
    intro hpw
    have hy : ∀ z ∈ ys, z.score ≤ y.score := fun z hz =>
      (List.pairwise_cons.1 hpw).1 z hz
    have hys := (List.pairwise_cons.1 hpw).2
    show List.Pairwise _ (if y.score < x.score then x :: y :: ys
      else y :: rrfInsertSorted x ys)
    split
    · rename_i hlt
      exact List.pairwise_cons.2 ⟨fun z hz => by
        rcases List.mem_cons.1 hz with h | h
        · exact h ▸ le_of_lt hlt
        · exact le_of_lt (lt_of_le_of_lt (hy z h) hlt), hpw⟩
    · rename_i hge
      refine List.pairwise_cons.2 ⟨fun z hz => ?_, ih hys⟩
      rcases mem_rrfInsertSorted.1 hz with h | h
      · exact h ▸ le_of_not_lt hge
      · exact hy z h

theorem rrfSortDesc_pairwise :
    ∀ m : List RRFEntry,
      List.Pairwise (fun a b => b.score ≤ a.score) (rrfSortDesc m) := by
  intro m
  induction m with
  | nil => exact List.Pairwise.nil
  | cons x xs ih => exact rrfInsertSorted_pairwise x (rrfSortDesc xs) ih

theorem claim_term_le (k : ℚ) (hk : 0 ≤ k) (l : List SearchResult) (id cid : Nat)
    (hhead : l.head?.map (fun r => r.id) = some cid) :
    (match idxOfId id l with
     | some rank => 1 / (k + (rank : ℚ) + 1)
     | none => (0 : ℚ))
      ≤ (match idxOfId cid l with
        | some rank => 1 / (k + (rank : ℚ) + 1)
        | none => (0 : ℚ)) := by
  match l, hhead with
  | r :: tl, hhead =>
    have hr : r.id = cid := by simpa using hhead
    have hcid : idxOfId cid (r :: tl) = some 0 := by rw [idxOfId, if_pos hr]
    rw [hcid]
    have hpos : (0 : ℚ) < k + 1 := by linarith
    cases hidx : idxOfId id (r :: tl) with
    | none =>
      simp only [Nat.cast_zero]
      positivity
    | some j =>
      simp only [Nat.cast_zero, add_zero]
      have h1 : k + 1 ≤ k + (j : ℚ) + 1 := by
        have : (0 : ℚ) ≤ (j : ℚ) := Nat.cast_nonneg j
        linarith
      have := one_div_le_one_div_of_le hpos h1
      linarith

theorem claimScore_le (k : ℚ) (hk : 0 ≤ k) (sets : List (List SearchResult))
    (id cid : Nat) (hheads : ∀ l ∈ sets, l.head?.map (fun r => r.id) = some cid) :
    rrfClaimScore k sets id ≤ rrfClaimScore k sets cid :=
  List.sum_le_sum (fun l hl => claim_term_le k hk l id cid (hheads l hl))

/-- C7: with duplicate-free ids within each ranked list, every fused result
carries as `rerank_score` exactly the sum over the input lists of
`1 / (k + rank + 1)` at its 0-based rank there (`0` from lists not containing
it); the output is ordered by descending fused score; and a candidate ranked
first in every (non-empty) input list is present in the output with the
maximum fused score among all candidates. -/
theorem C7_rrf_fusion :
    ∀ (k : ℚ) (resultSets : List (List SearchResult)),
      (∀ l ∈ resultSets, (l.map (fun r => r.id)).Nodup) →
      (∀ r ∈ reciprocalRankFusion resultSets k,
          r.rerank_score = some (rrfClaimScore k resultSets r.id))
      ∧ List.Pairwise (fun a b => b.rerank_score.getD 0 ≤ a.rerank_score.getD 0)
          (reciprocalRankFusion resultSets k)
      ∧ (∀ cid, 0 ≤ k → resultSets ≠ [] →
          (∀ l ∈ resultSets, l.head?.map (fun r => r.id) = some cid) →
          (∃ r ∈ reciprocalRankFusion resultSets k, r.id = cid
            ∧ r.rerank_score = some (rrfClaimScore k resultSets cid))
          ∧ ∀ r ∈ reciprocalRankFusion resultSets k,
              rrfClaimScore k resultSets r.id ≤ rrfClaimScore k resultSets cid) := by
  intro k sets hnd
  have hknd : (rrfKeys (sets.foldl (rrfList k) [])).Nodup :=
    setsFold_keys_nodup k sets [] (by simp [rrfKeys])
  have hscore : ∀ e ∈ sets.foldl (rrfList k) [],
      e.score = rrfClaimScore k sets e.result.id := by
    intro e he
    have h1 := lookup_of_mem_nodup _ hknd e he
    have h2 := setsFold_lookup k sets [] e.result.id hnd
    rw [h1] at h2
    simpa [rrfLookup] using h2
  have hout : reciprocalRankFusion sets k
      = (rrfSortDesc (sets.foldl (rrfList k) [])).map
          (fun e => { e.result with rerank_score := some e.score }) := rfl
  refine ⟨?_, ?_, ?_⟩
  · intro r hr
    rw [hout] at hr
    obtain ⟨e, he, hre⟩ := List.mem_map.1 hr
    have hef : e ∈ sets.foldl (rrfList k) [] :=
      (rrfSortDesc_perm _).mem_iff.1 he
    rw [← hre]
    show some e.score = some (rrfClaimScore k sets e.result.id)
    rw [hscore e hef]
  · rw [hout]
    refine List.Pairwise.map _ ?_ (rrfSortDesc_pairwise _)
    intro a b hab
    simpa using hab
  · intro cid hk hne hheads
    constructor
    · obtain ⟨l0, ls, rfl⟩ : ∃ l0 ls, sets = l0 :: ls := by
        match sets, hne with
        | s :: ss, _ => exact ⟨s, ss, rfl⟩
      have hh0 := hheads l0 (by simp)
      obtain ⟨r0, tl0, hl0⟩ : ∃ r0 tl0, l0 = r0 :: tl0 := by
        match hcl : l0, hh0 with
        | a :: b, _ => exact ⟨a, b, rfl⟩
      have hr0 : r0.id = cid := by
        rw [hl0] at hh0
        simpa using hh0
      have hmem : cid ∈ rrfKeys ((l0 :: ls).foldl (rrfList k) []) := by
        rw [← hr0]
        exact setsFold_keys_mem_of_mem k (l0 :: ls) [] l0 r0 (by simp)
          (by rw [hl0]; simp)
      simp only [rrfKeys] at hmem
      obtain ⟨e, he, hid⟩ := List.mem_map.1 hmem
      refine ⟨{ e.result with rerank_score := some e.score }, ?_, by simpa using hid, ?_⟩
      · rw [hout]
        exact List.mem_map_of_mem _ ((rrfSortDesc_perm _).mem_iff.2 he)
      · show some e.score = _
        rw [hscore e he]
        have hide : e.result.id = cid := hid
        rw [hide]
    · intro r hr
      rw [hout] at hr
      obtain ⟨e, he, hre⟩ := List.mem_map.1 hr
      have hrid : r.id = e.result.id := by rw [← hre]
      rw [hrid]
      exact claimScore_le k hk sets e.result.id cid hheads

/-- Bare scored candidates with distinct ids (concrete inputs for the RRF
analysis). -/
def exC7a : SearchResult :=
  { id := 10, filename := [], chunk_text := [], chunk_index := none,
    similarity := 0, rerank_score := none }

def exC7b : SearchResult :=
  { id := 11, filename := [], chunk_text := [], chunk_index := none,
    similarity := 0, rerank_score := none }

def exC7c : SearchResult :=
  { id := 12, filename := [], chunk_text := [], chunk_index := none,
    similarity := 0, rerank_score := none }

/-- Witness for C7 at a concrete fusion call in which `exC7a` is ranked first
in both input lists. -/
theorem C7_rrf_fusion_witness :
    (∀ l ∈ [[exC7a, exC7b], [exC7a, exC7c]], (l.map (fun r => r.id)).Nodup)
    ∧ (0 : ℚ) ≤ 60
    ∧ ([[exC7a, exC7b], [exC7a, exC7c]] : List (List SearchResult)) ≠ []
    ∧ (∀ l ∈ [[exC7a, exC7b], [exC7a, exC7c]],
        l.head?.map (fun r => r.id) = some exC7a.id)
    ∧ ∀ r ∈ reciprocalRankFusion [[exC7a, exC7b], [exC7a, exC7c]] 60,
        rrfClaimScore 60 [[exC7a, exC7b], [exC7a, exC7c]] r.id
          ≤ rrfClaimScore 60 [[exC7a, exC7b], [exC7a, exC7c]] exC7a.id := by
  refine ⟨by decide, by decide, by decide, by decide, ?_⟩
  exact ((C7_rrf_fusion 60 [[exC7a, exC7b], [exC7a, exC7c]] (by decide)).2.2
    exC7a.id (by decide) (by decide) (by decide)).2

end BunVectorMcp
